import Mathlib

/-!
# Verification of the glitchedit PNG editor core

A shallow embedding of the core algorithms of the glitchedit repository
(`script.js` and the shared effects/editor modules): the CRC-32 engine,
the PNG container parser, IHDR-derived image geometry, the IDAT
decompression/rebuild pipeline, the layer-stack engine with cache
invalidation, the edit history (undo/redo), and file export.

Byte buffers are modelled as `List Nat` whose elements are bytes
(`< 256`); 32-bit JavaScript unsigned arithmetic (`>>> 0`, `& 0xFF`,
`>>>`) is modelled with explicit `% 2^k`, division and `^^^`.
-/

namespace Glitchedit

/-- Byte buffers: lists of naturals, each `< 256` for genuine byte data. -/
abbrev Buffer := List Nat

/-- Every element of the buffer is a byte value. -/
def IsByteList (b : Buffer) : Prop := ∀ x ∈ b, x < 256

instance (b : Buffer) : Decidable (IsByteList b) :=
  inferInstanceAs (Decidable (∀ x ∈ b, x < 256))

/-! ## CRC-32 engine (`crcTable` / `crc32` in `script.js`) -/

/-- The reflected CRC-32 polynomial used by the code. -/
def CRC_POLY : Nat := 0xEDB88320

/-- One bit step of the table construction:
`c = (c & 1) ? (0xEDB88320 ^ (c >>> 1)) : (c >>> 1)`. -/
def crcBitStep (c : Nat) : Nat :=
  if c % 2 = 1 then CRC_POLY ^^^ (c / 2) else c / 2

/-- Entry `n` of the code's 256-entry CRC table: the `initCrcTable` loop
applies `crcBitStep` eight times to `n`. -/
def crcTable (n : Nat) : Nat := crcBitStep^[8] n

/-- The per-byte update of the table-driven loop:
`crc = crcTable[(crc ^ data[i]) & 0xFF] ^ (crc >>> 8)`. -/
def crc32Update (crc d : Nat) : Nat :=
  crcTable ((crc ^^^ d) % 256) ^^^ (crc / 256)

/-- `crc32(data, start, length)` from `script.js`: table-driven loop over
`data[start .. start+length)`, initial value `0xFFFFFFFF`, final
complement (`(crc ^ 0xFFFFFFFF) >>> 0`). -/
def crc32 (data : Buffer) (start len : Nat) : Nat :=
  ((List.range len).foldl
      (fun c i => crc32Update c (data.getD (start + i) 0)) 0xFFFFFFFF)
    ^^^ 0xFFFFFFFF

/-- Reference CRC-32 written from the spec's words (independent of the
lookup table): initial value `0xFFFFFFFF`; each byte is XORed into the
running value and eight reflected-polynomial (`0xEDB88320`) bit steps are
applied; final complement. -/
def crc32SpecOfBytes (bytes : Buffer) : Nat :=
  (bytes.foldl (fun c d => crcBitStep^[8] (c ^^^ d)) 0xFFFFFFFF) ^^^ 0xFFFFFFFF

/-! ### CRC lemmas: the table-driven loop implements the bitwise reference -/

theorem crcBitStep_xor_two_mul (a m : Nat) :
    crcBitStep (a ^^^ 2 * m) = crcBitStep a ^^^ m := by
  have h2m : 2 * m % 2 = 0 := Nat.mul_mod_right 2 m
  have hlow : (a ^^^ 2 * m) % 2 = a % 2 := by
    rcases Nat.mod_two_eq_zero_or_one (a ^^^ 2 * m) with h' | h' <;>
      rcases Nat.mod_two_eq_zero_or_one a with h | h <;>
      simp_all [Nat.xor_mod_two_eq_one]
  have hdiv : (a ^^^ 2 * m) / 2 = a / 2 ^^^ m := by
    rw [Nat.xor_div_two, Nat.mul_div_cancel_left m (by norm_num)]
  unfold crcBitStep
  rcases Nat.mod_two_eq_zero_or_one a with h | h
  · simp [hlow, hdiv, h]
  · simp [hlow, hdiv, h, Nat.xor_assoc]

theorem crcBitStep_iterate_split (k : Nat) (hk : k ≤ 8) (z : Nat) :
    crcBitStep^[k] z =
      crcBitStep^[k] (z % 256) ^^^ 2 ^ (8 - k) * (z / 256) := by
  induction k with
  | zero =>
      simp only [Function.iterate_zero, id_eq, Nat.sub_zero]
      have h256 : (256 : Nat) = 2 ^ 8 := by norm_num
      apply Nat.eq_of_testBit_eq
      intro i
      rcases Nat.lt_or_ge i 8 with hi | hi
      · have h1 : (2 ^ 8 * (z / 256)).testBit i = false := by
          rw [Nat.testBit_mul_pow_two]
          simp [Nat.not_le_of_lt hi]
        have h2 : (z % 256).testBit i = z.testBit i := by
          rw [h256, Nat.testBit_mod_two_pow]
          simp [hi]
        rw [Nat.testBit_xor, h1, h2, Bool.xor_false]
      · have h1 : (z % 256).testBit i = false := by
          rw [h256, Nat.testBit_mod_two_pow]
          simp [Nat.not_lt_of_le hi]
        have h2 : (2 ^ 8 * (z / 256)).testBit i = z.testBit i := by
          rw [Nat.testBit_mul_pow_two]
          have hz : z / 256 = z >>> 8 := by
            rw [Nat.shiftRight_eq_div_pow, h256]
          rw [hz, Nat.testBit_shiftRight]
          have h8i : 8 + (i - 8) = i := by omega
          simp [hi, h8i]
        rw [Nat.testBit_xor, h1, h2, Bool.false_xor]
  | succ k ih =>
      have hk' : k ≤ 8 := Nat.le_of_succ_le hk
      have hsplit : 2 ^ (8 - k) * (z / 256) =
          2 * (2 ^ (8 - (k + 1)) * (z / 256)) := by
        have h8 : 8 - k = (8 - (k + 1)) + 1 := by omega
        rw [h8, pow_succ]
        ring
      rw [Function.iterate_succ_apply', Function.iterate_succ_apply',
        ih hk', hsplit, crcBitStep_xor_two_mul]

theorem crc32Update_eq_spec (crc d : Nat) (hd : d < 256) :
    crc32Update crc d = crcBitStep^[8] (crc ^^^ d) := by
  have h256 : (256 : Nat) = 2 ^ 8 := by norm_num
  have hmod : (crc ^^^ d) / 256 = crc / 256 := by
    apply Nat.eq_of_testBit_eq
    intro i
    have hdiv : ∀ x : Nat, x / 256 = x >>> 8 := by
      intro x; rw [Nat.shiftRight_eq_div_pow, h256]
    have hdbit : d.testBit (8 + i) = false := by
      apply Nat.testBit_lt_two_pow
      calc d < 2 ^ 8 := h256 ▸ hd
      _ ≤ 2 ^ (8 + i) := Nat.pow_le_pow_right (by norm_num) (Nat.le_add_right 8 i)
    rw [hdiv, hdiv, Nat.testBit_shiftRight, Nat.testBit_shiftRight,
      Nat.testBit_xor, hdbit]
    simp
  rw [crc32Update, crcTable,
    crcBitStep_iterate_split 8 (le_refl 8) (crc ^^^ d), hmod]
  simp

theorem foldl_crc32Update_eq_spec (bytes : Buffer) (hb : IsByteList bytes)
    (crc : Nat) :
    bytes.foldl crc32Update crc =
      bytes.foldl (fun c d => crcBitStep^[8] (c ^^^ d)) crc := by
  induction bytes generalizing crc with
  | nil => rfl
  | cons d rest ih =>
      have hd : d < 256 := hb d (List.mem_cons_self d rest)
      have hrest : IsByteList rest := fun x hx => hb x (List.mem_cons_of_mem d hx)
      simp only [List.foldl_cons, crc32Update_eq_spec crc d hd, ih hrest]

/-- The range-indexed loop of `crc32` equals the fold over the extracted
byte slice. -/
theorem crc32_eq_foldl_slice (data : Buffer) (start len : Nat)
    (hlen : start + len ≤ data.length) :
    crc32 data start len =
      (((data.drop start).take len).foldl crc32Update 0xFFFFFFFF)
        ^^^ 0xFFFFFFFF := by
  have key : ∀ (l s : Nat) (c : Nat), s + l ≤ data.length →
      (List.range l).foldl (fun acc i => crc32Update acc (data.getD (s + i) 0)) c =
      ((data.drop s).take l).foldl crc32Update c := by
    intro l
    induction l with
    | zero => intro s c _; simp
    | succ l ih =>
        intro s c hsl
        have hs : s < data.length := by omega
        have hdrop : data.drop s = data.getD s 0 :: data.drop (s + 1) := by
          rw [List.getD_eq_getElem data 0 hs]
          exact List.drop_eq_getElem_cons hs
        rw [List.range_succ_eq_map]
        simp only [List.foldl_cons, hdrop, List.take_succ_cons, List.foldl_map]
        rw [Nat.add_zero]
        have heq :
            (List.range l).foldl
              (fun acc i => crc32Update acc (data.getD (s + (i + 1)) 0)) (crc32Update c (data.getD s 0)) =
            (List.range l).foldl
              (fun acc i => crc32Update acc (data.getD ((s + 1) + i) 0)) (crc32Update c (data.getD s 0)) := by
          apply List.foldl_ext
          intro acc x _
          have harg : s + (x + 1) = (s + 1) + x := by omega
          rw [harg]
        rw [heq, ih (s + 1) _ (by omega)]
  unfold crc32
  rw [key len start 0xFFFFFFFF hlen]

/-- **C4.** `crc32(buffer, start, length)` is a pure function of the bytes in
`[start, start+length)`: it equals the spec's reflected-polynomial
(`0xEDB88320`) CRC with initial value `0xFFFFFFFF` and final complement,
computed over exactly that byte slice; and on the four ASCII bytes
`"IEND"` it yields `0xAE426082`. -/
theorem crc32_matches_spec (data : Buffer) (start len : Nat)
    (hlen : start + len ≤ data.length) (hb : IsByteList data) :
    crc32 data start len = crc32SpecOfBytes ((data.drop start).take len) ∧
    crc32 [0x49, 0x45, 0x4E, 0x44] 0 4 = 0xAE426082 := by
  constructor
  · rw [crc32_eq_foldl_slice data start len hlen, crc32SpecOfBytes,
      foldl_crc32Update_eq_spec]
    intro x hx
    exact hb x (List.mem_of_mem_drop (List.mem_of_mem_take hx))
  · decide

/-- Witness for C4 at a concrete input: the buffer `"IEND"` itself, full
range; both conjuncts evaluate concretely. -/
theorem crc32_matches_spec_witness :
    crc32 [0x49, 0x45, 0x4E, 0x44] 0 4 =
      crc32SpecOfBytes (([0x49, 0x45, 0x4E, 0x44].drop 0).take 4) ∧
    crc32 [0x49, 0x45, 0x4E, 0x44] 0 4 = 0xAE426082 :=
  crc32_matches_spec [0x49, 0x45, 0x4E, 0x44] 0 4 (by decide) (by decide)

/-! ## Scanline pixel model (`parseIHDR` in `script.js`) -/

/-- Big-endian 32-bit read at offset `o`:
`((b[o] << 24) | (b[o+1] << 16) | (b[o+2] << 8) | b[o+3]) >>> 0`.
For byte-valued entries this equals the base-256 value. -/
def readU32BE (b : Buffer) (o : Nat) : Nat :=
  256 ^ 3 * b.getD o 0 + 256 ^ 2 * b.getD (o + 1) 0 +
    256 * b.getD (o + 2) 0 + b.getD (o + 3) 0

/-- The geometry derived once per file from the IHDR payload. -/
structure ImageInfo where
  width : Nat
  height : Nat
  bitDepth : Nat
  colorType : Nat
  channels : Nat
  bytesPerPixel : Nat
  scanlineLength : Nat
  deriving Repr, DecidableEq

/-- The `switch (colorType)` of `parseIHDR`: 0→1, 2→3, 3→1, 4→2, 6→4,
default→4. -/
def channelsForColorType (ct : Nat) : Nat :=
  match ct with
  | 0 => 1
  | 2 => 3
  | 3 => 1
  | 4 => 2
  | 6 => 4
  | _ => 4

/-- `parseIHDR` applied to the 13-byte IHDR payload: big-endian
width/height at offsets 0/4, `bitDepth` at 8, `colorType` at 9,
`bytesPerPixel = Math.ceil((channels * bitDepth) / 8)`,
`scanlineLength = 1 + width * bytesPerPixel`. -/
def parseIHDRData (data : Buffer) : ImageInfo :=
  let width := readU32BE data 0
  let height := readU32BE data 4
  let bitDepth := data.getD 8 0
  let colorType := data.getD 9 0
  let channels := channelsForColorType colorType
  let bytesPerPixel := (channels * bitDepth + 7) / 8
  { width := width, height := height, bitDepth := bitDepth,
    colorType := colorType, channels := channels,
    bytesPerPixel := bytesPerPixel,
    scanlineLength := 1 + width * bytesPerPixel }

/-- The pixel addressing scheme every effect uses:
`row * scanlineLength + 1 + col * bytesPerPixel + channelIndex`. -/
def pixelOffset (info : ImageInfo) (x y channel : Nat) : Nat :=
  y * info.scanlineLength + 1 + x * info.bytesPerPixel + channel

/-- The 13-byte IHDR payload of a 4×4, 8-bit RGBA image. -/
def ihdr4x4RGBA : Buffer := [0, 0, 0, 4, 0, 0, 0, 4, 8, 6, 0, 0, 0]

/-- **C9.** ImageInfo derivation: width/height are read big-endian at
offsets 0 and 4, bitDepth at 8, colorType at 9; the channel count is
0→1, 2→3, 3→1, 4→2, 6→4 and every other color type falls back to 4
channels; `bytesPerPixel` is the ceiling of `channels*bitDepth/8`
(characterised order-theoretically); `scanlineLength = 1 +
width*bytesPerPixel`; and for a 4×4 RGBA image (bytesPerPixel 4,
scanlineLength 17) pixel (x=2, y=1) maps to buffer offset 26. -/
theorem parseIHDR_spec (data : Buffer) (ct : Nat) :
    ((parseIHDRData data).width = readU32BE data 0 ∧
      (parseIHDRData data).height = readU32BE data 4 ∧
      (parseIHDRData data).bitDepth = data.getD 8 0 ∧
      (parseIHDRData data).colorType = data.getD 9 0) ∧
    (channelsForColorType 0 = 1 ∧ channelsForColorType 2 = 3 ∧
      channelsForColorType 3 = 1 ∧ channelsForColorType 4 = 2 ∧
      channelsForColorType 6 = 4 ∧
      (ct = 0 ∨ ct = 2 ∨ ct = 3 ∨ ct = 4 ∨ ct = 6 ∨
        channelsForColorType ct = 4)) ∧
    ((parseIHDRData data).channels * (parseIHDRData data).bitDepth ≤
        8 * (parseIHDRData data).bytesPerPixel ∧
      8 * (parseIHDRData data).bytesPerPixel <
        (parseIHDRData data).channels * (parseIHDRData data).bitDepth + 8) ∧
    (parseIHDRData data).scanlineLength =
      1 + (parseIHDRData data).width * (parseIHDRData data).bytesPerPixel ∧
    ((parseIHDRData ihdr4x4RGBA).bytesPerPixel = 4 ∧
      (parseIHDRData ihdr4x4RGBA).scanlineLength = 17 ∧
      pixelOffset (parseIHDRData ihdr4x4RGBA) 2 1 0 = 26) := by
  refine ⟨⟨rfl, rfl, rfl, rfl⟩, ⟨rfl, rfl, rfl, rfl, rfl, ?_⟩, ⟨?_, ?_⟩, rfl,
    by decide⟩
  · unfold channelsForColorType
    split <;> simp
  · show (parseIHDRData data).channels * (parseIHDRData data).bitDepth ≤
      8 * (((parseIHDRData data).channels * (parseIHDRData data).bitDepth + 7) / 8)
    omega
  · show 8 * (((parseIHDRData data).channels * (parseIHDRData data).bitDepth + 7) / 8) <
      (parseIHDRData data).channels * (parseIHDRData data).bitDepth + 8
    omega

/-! ## Parameter scaling (`logScale` / `logScaleBidirectional`) -/

/-- `logScale(value, max, actualMax, power) = Math.pow(value / max, power) *
actualMax`; `Math.pow` is modelled by `Real.rpow`. -/
noncomputable def logScale (value mx actualMax power : ℝ) : ℝ :=
  (value / mx) ^ power * actualMax

/-- `logScaleBidirectional`: `sign * Math.pow(Math.abs(value) / max, power)
* actualMax` with `sign = value < 0 ? -1 : 1`. -/
noncomputable def logScaleBidirectional (value mx actualMax power : ℝ) : ℝ :=
  (if value < 0 then (-1 : ℝ) else 1) * ((|value| / mx) ^ power * actualMax)

/-- The default exponent of `logScale` in `script.js` (`power = 2`). -/
def logScaleDefaultPowerScript : ℝ := 2

/-- The default exponent of `logScale` in the shared effects module
(`power = 2.5`). -/
noncomputable def logScaleDefaultPowerEffects : ℝ := 5 / 2

/-- The slider mapping as the claim states it: `(v/sliderMax)^2.5 *
targetMax` (exponent 2.5). -/
noncomputable def logScaleClaimed (value sliderMax targetMax : ℝ) : ℝ :=
  (value / sliderMax) ^ ((5 : ℝ) / 2) * targetMax

/-- **C7 counterexample.** `script.js`'s `logScale` at its default exponent
(2) disagrees with the claimed exponent-2.5 mapping: at slider value 25 of
100 with target 32, the code yields 2 while the claimed curve yields 1. -/
theorem logScale_script_default_ne_claimed :
    logScale 25 100 32 logScaleDefaultPowerScript ≠ logScaleClaimed 25 100 32 := by
  have hscript : logScale 25 100 32 logScaleDefaultPowerScript = 2 := by
    unfold logScale logScaleDefaultPowerScript
    rw [show ((2:ℝ)) = ((2:ℕ):ℝ) by norm_num, Real.rpow_natCast]
    norm_num
  have hclaimed : logScaleClaimed 25 100 32 = 1 := by
    unfold logScaleClaimed
    have h14 : ((25:ℝ)/100) = (1/2) ^ ((2:ℝ)) := by
      rw [show ((2:ℝ)) = ((2:ℕ):ℝ) by norm_num, Real.rpow_natCast]
      norm_num
    rw [h14, ← Real.rpow_mul (by norm_num : (0:ℝ) ≤ 1/2)]
    norm_num
  rw [hscript, hclaimed]
  norm_num

/-- **C7 (amended).** The power-curve convention as the code implements it:
`script.js`'s `logScale` defaults to exponent 2 (so it is the square of the
normalised slider value times the target), the shared effects module's
`logScale` defaults to exponent 2.5 (so its square is the fifth power of the
normalised value times the squared target), and the bidirectional variant at
the effects default is sign-preserving (odd in the slider value). -/
theorem logScale_powerlaw_defaults (v m a : ℝ) (h : 0 ≤ v / m) :
    logScale v m a logScaleDefaultPowerScript = (v / m) ^ (2 : ℕ) * a ∧
    (logScale v m a logScaleDefaultPowerEffects) ^ (2 : ℕ) =
      (v / m) ^ (5 : ℕ) * a ^ (2 : ℕ) ∧
    ∀ w : ℝ, logScaleBidirectional (-w) m a logScaleDefaultPowerEffects =
      - logScaleBidirectional w m a logScaleDefaultPowerEffects := by
  refine ⟨?_, ?_, ?_⟩
  · unfold logScale logScaleDefaultPowerScript
    rw [← Real.rpow_natCast (v / m) 2]
    norm_num
  · unfold logScale logScaleDefaultPowerEffects
    rw [mul_pow, ← Real.rpow_natCast ((v / m) ^ ((5:ℝ)/2)) 2, ← Real.rpow_mul h]
    norm_num
    exact Or.inl (by rw [show ((5:ℝ)) = ((5:ℕ):ℝ) by norm_num, Real.rpow_natCast])
  · intro w
    unfold logScaleBidirectional logScaleDefaultPowerEffects
    rcases lt_trichotomy w 0 with hw | hw | hw
    · rw [abs_neg, if_neg (by linarith), if_pos hw]
      ring
    · subst hw
      simp [Real.zero_rpow (by norm_num : ((5:ℝ)/2) ≠ 0)]
    · rw [abs_neg, if_pos (by linarith), if_neg (by linarith)]
      ring

/-- Witness for the amended C7 at slider value 25, max 100, target 32. -/
theorem logScale_powerlaw_defaults_witness :
    (0 : ℝ) ≤ 25 / 100 ∧
    (logScale 25 100 32 logScaleDefaultPowerScript =
        ((25 : ℝ) / 100) ^ (2 : ℕ) * 32 ∧
      (logScale 25 100 32 logScaleDefaultPowerEffects) ^ (2 : ℕ) =
        ((25 : ℝ) / 100) ^ (5 : ℕ) * 32 ^ (2 : ℕ) ∧
      ∀ w : ℝ, logScaleBidirectional (-w) 100 32 logScaleDefaultPowerEffects =
        - logScaleBidirectional w 100 32 logScaleDefaultPowerEffects) :=
  ⟨by norm_num, logScale_powerlaw_defaults 25 100 32 (by norm_num)⟩

/-! ## Layer stack engine (`invalidateFromLayer` / `renderLayerStack`) -/

/-- Effect parameters: a mapping of parameter id to value (values are
opaque to the layer engine). -/
abbrev Params := List (String × Int)

/-- One layer of the stack: `{ id, effectId, enabled, params, seed }`. -/
structure Layer where
  id : Nat
  effectId : String
  enabled : Bool
  params : Params
  seed : Nat
  deriving Repr, DecidableEq

/-- An effect's `apply(pixelData, imageInfo, params, seed)` function. -/
abbrev EffectApply := Buffer → ImageInfo → Params → Nat → Buffer

/-- The effect registry: lookup by effect id (`effectRegistry.get`). -/
abbrev EffectRegistry := String → Option EffectApply

/-- The `cachedResults` map (`layerId -> Uint8Array`), with JS `Map`
semantics: unique keys, `set` replaces in place or appends. -/
abbrev CacheMap := List (Nat × Buffer)

/-- `Map.get`. -/
def cacheGet (m : CacheMap) (k : Nat) : Option Buffer :=
  (m.find? (fun p => p.1 == k)).map (fun p => p.2)

/-- `Map.set`: replace the entry for `k` in place, or append. -/
def cacheSet (m : CacheMap) (k : Nat) (v : Buffer) : CacheMap :=
  match m with
  | [] => [(k, v)]
  | (k', v') :: rest =>
      if k' = k then (k, v) :: rest else (k', v') :: cacheSet rest k v

/-- `Map.delete`: remove the (unique) entry for `k`, if present. -/
def cacheDelete (m : CacheMap) (k : Nat) : CacheMap :=
  match m with
  | [] => []
  | (k', v') :: rest =>
      if k' = k then rest else (k', v') :: cacheDelete rest k

/-- The layer-stack state:
`{ layers, originalPixelData, cachedResults, dirtyFromIndex }`. -/
structure LayerStack where
  layers : List Layer
  originalPixelData : Option Buffer
  cachedResults : CacheMap
  dirtyFromIndex : Int
  deriving Repr, DecidableEq

/-- `invalidateFromLayer(index)`: set `dirtyFromIndex = index` and delete
the cached result of every layer at position `index` or later. -/
def invalidateFromLayer (st : LayerStack) (index : Nat) : LayerStack :=
  { st with
    dirtyFromIndex := index,
    cachedResults :=
      (st.layers.drop index).foldl (fun m l => cacheDelete m l.id)
        st.cachedResults }

/-- The layer loop of `renderLayerStack`: skip disabled layers and layers
whose effect is not registered; a layer with a cached result at index
`i ≥ dirtyFromIndex` reuses the cache; otherwise apply the effect and
store the result keyed by layer id. -/
def renderLoop (reg : EffectRegistry) (info : ImageInfo) (dirty : Int) :
    List Layer → Nat → Buffer → CacheMap → Buffer × CacheMap
  | [], _, data, caches => (data, caches)
  | l :: rest, i, data, caches =>
      if l.enabled then
        match reg l.effectId with
        | none => renderLoop reg info dirty rest (i + 1) data caches
        | some app =>
            match cacheGet caches l.id with
            | some cached =>
                if (i : Int) ≥ dirty then
                  renderLoop reg info dirty rest (i + 1) cached caches
                else
                  let d := app data info l.params l.seed
                  renderLoop reg info dirty rest (i + 1) d
                    (cacheSet caches l.id d)
            | none =>
                let d := app data info l.params l.seed
                renderLoop reg info dirty rest (i + 1) d
                  (cacheSet caches l.id d)
      else renderLoop reg info dirty rest (i + 1) data caches

/-- `renderLayerStack` (the layer-stack part): fold the layers over the
pristine `originalPixelData`, then reset `dirtyFromIndex` to `-1`;
returns the updated stack and the resulting pixel buffer. -/
def renderLayerStack (reg : EffectRegistry) (info : ImageInfo)
    (st : LayerStack) : LayerStack × Option Buffer :=
  match st.originalPixelData with
  | none => (st, none)
  | some orig =>
      let r := renderLoop reg info st.dirtyFromIndex st.layers 0 orig
        st.cachedResults
      ({ st with cachedResults := r.2, dirtyFromIndex := -1 }, some r.1)

/-- The recompute pass exactly as the claim words it: an enabled layer
with a valid cached result at an index **below** `dirtyFromIndex` reuses
the cache; every other enabled layer applies its effect and stores the
result; disabled (or unregistered) layers pass through uncached. -/
def claimedLoop (reg : EffectRegistry) (info : ImageInfo) (dirty : Int) :
    List Layer → Nat → Buffer → CacheMap → Buffer × CacheMap
  | [], _, data, caches => (data, caches)
  | l :: rest, i, data, caches =>
      if l.enabled then
        match reg l.effectId with
        | none => claimedLoop reg info dirty rest (i + 1) data caches
        | some app =>
            match cacheGet caches l.id with
            | some cached =>
                if (i : Int) < dirty then
                  claimedLoop reg info dirty rest (i + 1) cached caches
                else
                  let d := app data info l.params l.seed
                  claimedLoop reg info dirty rest (i + 1) d
                    (cacheSet caches l.id d)
            | none =>
                let d := app data info l.params l.seed
                claimedLoop reg info dirty rest (i + 1) d
                  (cacheSet caches l.id d)
      else claimedLoop reg info dirty rest (i + 1) data caches

/-- The full recompute pass as the claim words it. -/
def claimedRecompute (reg : EffectRegistry) (info : ImageInfo)
    (st : LayerStack) : LayerStack × Option Buffer :=
  match st.originalPixelData with
  | none => (st, none)
  | some orig =>
      let r := claimedLoop reg info st.dirtyFromIndex st.layers 0 orig
        st.cachedResults
      ({ st with cachedResults := r.2, dirtyFromIndex := -1 }, some r.1)

/-- A registry holding one concrete effect that appends a byte. -/
def demoRegistry : EffectRegistry := fun id =>
  if id = "demo" then some (fun data _ _ _ => data ++ [7]) else none

/-- Image info used by the concrete layer-stack states. -/
def demoInfo : ImageInfo := parseIHDRData ihdr4x4RGBA

/-- A clean (`dirtyFromIndex = -1`) stack with one enabled layer whose
cache entry differs from what its effect would produce. -/
def demoStack : LayerStack :=
  { layers := [{ id := 1, effectId := "demo", enabled := true,
                 params := [], seed := 0 }],
    originalPixelData := some [0],
    cachedResults := [(1, [42])],
    dirtyFromIndex := -1 }

/-- **C1 counterexample.** On a clean stack (`dirtyFromIndex = -1`) the
code reuses any cached result (`i >= dirtyFromIndex`), while the claim
says a cache may be reused only at an index **below** `dirtyFromIndex`
(so never on a clean stack): on `demoStack` the code outputs the cached
buffer `[42]` where the claimed pass re-applies the effect and outputs
`[0, 7]`. -/
theorem renderLayerStack_ne_claimed :
    renderLayerStack demoRegistry demoInfo demoStack ≠
      claimedRecompute demoRegistry demoInfo demoStack := by
  decide

/-- The recompute pass with the cache condition the code actually has
(`i ≥ dirtyFromIndex`), written from the amended claim's words. -/
def amendedLoop (reg : EffectRegistry) (info : ImageInfo) (dirty : Int) :
    List Layer → Nat → Buffer → CacheMap → Buffer × CacheMap
  | [], _, data, caches => (data, caches)
  | l :: rest, i, data, caches =>
      if l.enabled then
        match reg l.effectId with
        | none => amendedLoop reg info dirty rest (i + 1) data caches
        | some app =>
            match cacheGet caches l.id with
            | some cached =>
                if dirty ≤ (i : Int) then
                  amendedLoop reg info dirty rest (i + 1) cached caches
                else
                  let d := app data info l.params l.seed
                  amendedLoop reg info dirty rest (i + 1) d
                    (cacheSet caches l.id d)
            | none =>
                let d := app data info l.params l.seed
                amendedLoop reg info dirty rest (i + 1) d
                  (cacheSet caches l.id d)
      else amendedLoop reg info dirty rest (i + 1) data caches

/-- The full amended recompute pass. -/
def amendedRecompute (reg : EffectRegistry) (info : ImageInfo)
    (st : LayerStack) : LayerStack × Option Buffer :=
  match st.originalPixelData with
  | none => (st, none)
  | some orig =>
      let r := amendedLoop reg info st.dirtyFromIndex st.layers 0 orig
        st.cachedResults
      ({ st with cachedResults := r.2, dirtyFromIndex := -1 }, some r.1)

theorem renderLoop_eq_amendedLoop (reg : EffectRegistry) (info : ImageInfo)
    (dirty : Int) (layers : List Layer) (i : Nat) (data : Buffer)
    (caches : CacheMap) :
    renderLoop reg info dirty layers i data caches =
      amendedLoop reg info dirty layers i data caches := by
  induction layers generalizing i data caches with
  | nil => rfl
  | cons l rest ih =>
      unfold renderLoop amendedLoop
      by_cases hen : l.enabled
      · simp only [hen, if_true]
        cases reg l.effectId with
        | none => exact ih _ _ _
        | some app =>
            cases cacheGet caches l.id with
            | none => exact ih _ _ _
            | some cached =>
                simp only [ge_iff_le]
                by_cases hd : dirty ≤ (i : Int)
                · simp only [hd, if_true]
                  exact ih _ _ _
                · simp only [hd, if_false]
                  exact ih _ _ _
      · simp only [hen, if_false]
        exact ih _ _ _

/-- **C1 (amended).** The recompute pass starts from the pristine
original buffer, disabled (or unregistered) layers pass their input
through without caching, an enabled layer with a cached result at an
index **at or above** `dirtyFromIndex` reuses the cached buffer, every
other enabled layer applies its effect and stores the result keyed by
its layer id, and after the pass `dirtyFromIndex` is reset to `-1`. -/
theorem renderLayerStack_eq_amended (reg : EffectRegistry)
    (info : ImageInfo) (st : LayerStack) :
    renderLayerStack reg info st = amendedRecompute reg info st := by
  unfold renderLayerStack amendedRecompute
  cases st.originalPixelData with
  | none => rfl
  | some orig => simp only [renderLoop_eq_amendedLoop]

/-! ### Cache-map lemmas and the invalidation claim (C2) -/

theorem cacheGet_eq_none_iff (m : CacheMap) (k : Nat) :
    cacheGet m k = none ↔ k ∉ m.map Prod.fst := by
  unfold cacheGet
  rw [Option.map_eq_none', List.find?_eq_none]
  constructor
  · intro h hk
    rcases List.mem_map.mp hk with ⟨p, hp, hpk⟩
    exact (by simpa using h p hp : ¬p.1 = k) hpk
  · intro h p hp
    simp only [beq_iff_eq]
    intro hpk
    exact h (List.mem_map.mpr ⟨p, hp, hpk⟩)

theorem cacheDelete_sublist (m : CacheMap) (k : Nat) :
    (cacheDelete m k).Sublist m := by
  induction m with
  | nil => simp [cacheDelete]
  | cons p rest ih =>
      unfold cacheDelete
      by_cases h : p.1 = k
      · simp only [h, if_true]
        exact (List.sublist_cons_self p rest)
      · simp only [h, if_false]
        exact ih.cons₂ p

theorem cacheGet_cacheDelete_ne (m : CacheMap) (k k' : Nat) (h : k' ≠ k) :
    cacheGet (cacheDelete m k) k' = cacheGet m k' := by
  induction m with
  | nil => rfl
  | cons p rest ih =>
      unfold cacheDelete
      by_cases hk : p.1 = k
      · simp only [hk, if_true]
        show cacheGet rest k' = cacheGet (p :: rest) k'
        unfold cacheGet
        rw [List.find?_cons_of_neg _
          (by simp only [hk, beq_iff_eq]; exact fun hh => h hh.symm)]
      · simp only [hk, if_false]
        unfold cacheGet
        by_cases hk' : p.1 = k'
        · rw [List.find?_cons_of_pos _ (by simp [hk']),
            List.find?_cons_of_pos _ (by simp [hk'])]
        · rw [List.find?_cons_of_neg _ (by simp [hk']),
            List.find?_cons_of_neg _ (by simp [hk'])]
          exact ih

theorem cacheGet_cacheDelete_self (m : CacheMap) (k : Nat)
    (h : (m.map Prod.fst).Nodup) : cacheGet (cacheDelete m k) k = none := by
  induction m with
  | nil => rfl
  | cons p rest ih =>
      rw [List.map_cons, List.nodup_cons] at h
      unfold cacheDelete
      by_cases hk : p.1 = k
      · simp only [hk, if_true]
        rw [cacheGet_eq_none_iff, ← hk]
        exact h.1
      · simp only [hk, if_false]
        unfold cacheGet
        rw [List.find?_cons_of_neg _ (by simp [hk])]
        exact ih h.2

theorem cacheDelete_keys_nodup (m : CacheMap) (k : Nat)
    (h : (m.map Prod.fst).Nodup) :
    ((cacheDelete m k).map Prod.fst).Nodup :=
  ((cacheDelete_sublist m k).map Prod.fst).nodup h

theorem foldl_cacheDelete_get_of_mem (ls : List Layer) (m : CacheMap)
    (k : Nat) (hm : (m.map Prod.fst).Nodup) (hk : k ∈ ls.map Layer.id) :
    cacheGet (ls.foldl (fun m' l => cacheDelete m' l.id) m) k = none := by
  induction ls generalizing m with
  | nil => simp at hk
  | cons l rest ih =>
      simp only [List.foldl_cons]
      rcases List.mem_map.mp hk with ⟨l', hl', hlk⟩
      rcases List.mem_cons.mp hl' with h1 | h1
      · subst h1
        by_cases hmem : k ∈ rest.map Layer.id
        · exact ih (cacheDelete m l'.id) (cacheDelete_keys_nodup m l'.id hm) hmem
        · have hnone : cacheGet (cacheDelete m l'.id) k = none := by
            rw [hlk]
            exact cacheGet_cacheDelete_self m k hm
          have hnot : k ∉ (cacheDelete m l'.id).map Prod.fst :=
            (cacheGet_eq_none_iff _ k).mp hnone
          rw [cacheGet_eq_none_iff]
          intro hmem2
          apply hnot
          have hsub : (rest.foldl (fun m' l => cacheDelete m' l.id)
              (cacheDelete m l'.id)).Sublist (cacheDelete m l'.id) := by
            clear hnone hnot hmem2 ih hk hl' hmem
            generalize cacheDelete m l'.id = m0
            induction rest generalizing m0 with
            | nil => simp
            | cons r rr ihr =>
                simp only [List.foldl_cons]
                exact (ihr (cacheDelete m0 r.id)).trans
                  (cacheDelete_sublist m0 r.id)
          exact (hsub.map Prod.fst).mem hmem2
      · exact ih (cacheDelete m l.id) (cacheDelete_keys_nodup m l.id hm)
          (List.mem_map.mpr ⟨l', h1, hlk⟩)

theorem foldl_cacheDelete_get_of_not_mem (ls : List Layer) (m : CacheMap)
    (k : Nat) (hk : k ∉ ls.map Layer.id) :
    cacheGet (ls.foldl (fun m' l => cacheDelete m' l.id) m) k = cacheGet m k := by
  induction ls generalizing m with
  | nil => rfl
  | cons l rest ih =>
      simp only [List.foldl_cons]
      have hne : k ≠ l.id := by
        intro h
        exact hk (List.mem_map.mpr ⟨l, List.mem_cons_self l rest, h.symm⟩)
      have hrest : k ∉ rest.map Layer.id := by
        intro h
        rcases List.mem_map.mp h with ⟨l', hl', hlk⟩
        exact hk (List.mem_map.mpr ⟨l', List.mem_cons_of_mem l hl', hlk⟩)
      rw [ih (cacheDelete m l.id) hrest, cacheGet_cacheDelete_ne m l.id k hne]

/-- A stack whose `dirtyFromIndex` is already 2. -/
def dirtyTwoStack : LayerStack :=
  { layers := [], originalPixelData := none, cachedResults := [],
    dirtyFromIndex := 2 }

/-- **C2 counterexample.** `invalidateFromLayer` assigns `dirtyFromIndex =
index` unconditionally: invalidating from index 5 on a stack whose
`dirtyFromIndex` is 2 yields 5, not `min 2 5 = 2`. -/
theorem invalidateFromLayer_not_min :
    (invalidateFromLayer dirtyTwoStack 5).dirtyFromIndex ≠
      min dirtyTwoStack.dirtyFromIndex 5 := by
  decide

/-- **C2 (amended).** `invalidateFromLayer(index)` sets `dirtyFromIndex`
to `index` (not to the minimum with its previous value), evicts the
cached result of every layer at position `index` or later, and retains
the cached results of layers before `index`. -/
theorem invalidateFromLayer_spec (st : LayerStack) (index : Nat)
    (hkeys : (st.cachedResults.map Prod.fst).Nodup)
    (hids : (st.layers.map Layer.id).Nodup) :
    (invalidateFromLayer st index).dirtyFromIndex = index ∧
    (∀ l ∈ st.layers.drop index,
      cacheGet (invalidateFromLayer st index).cachedResults l.id = none) ∧
    (∀ l ∈ st.layers.take index,
      cacheGet (invalidateFromLayer st index).cachedResults l.id =
        cacheGet st.cachedResults l.id) := by
  refine ⟨rfl, ?_, ?_⟩
  · intro l hl
    exact foldl_cacheDelete_get_of_mem _ _ _ hkeys
      (List.mem_map.mpr ⟨l, hl, rfl⟩)
  · intro l hl
    apply foldl_cacheDelete_get_of_not_mem
    intro hmem
    have hnd : ((st.layers.take index).map Layer.id ++
        (st.layers.drop index).map Layer.id).Nodup := by
      rw [← List.map_append, List.take_append_drop]
      exact hids
    exact (List.nodup_append.mp hnd).2.2
      (List.mem_map.mpr ⟨l, hl, rfl⟩) hmem

/-- A two-layer stack with distinct ids and caches for both layers. -/
def twoLayerStack : LayerStack :=
  { layers := [{ id := 1, effectId := "demo", enabled := true,
                 params := [], seed := 0 },
               { id := 2, effectId := "demo", enabled := true,
                 params := [], seed := 0 }],
    originalPixelData := some [0],
    cachedResults := [(1, [10]), (2, [20])],
    dirtyFromIndex := -1 }

/-- Witness for the amended C2: invalidating `twoLayerStack` from index 1
sets `dirtyFromIndex = 1`, evicts layer 2's cache and keeps layer 1's. -/
theorem invalidateFromLayer_spec_witness :
    ((twoLayerStack.cachedResults.map Prod.fst).Nodup ∧
      (twoLayerStack.layers.map Layer.id).Nodup) ∧
    ((invalidateFromLayer twoLayerStack 1).dirtyFromIndex = 1 ∧
      (∀ l ∈ twoLayerStack.layers.drop 1,
        cacheGet (invalidateFromLayer twoLayerStack 1).cachedResults l.id =
          none) ∧
      (∀ l ∈ twoLayerStack.layers.take 1,
        cacheGet (invalidateFromLayer twoLayerStack 1).cachedResults l.id =
          cacheGet twoLayerStack.cachedResults l.id)) :=
  ⟨⟨by decide, by decide⟩,
    invalidateFromLayer_spec twoLayerStack 1 (by decide) (by decide)⟩

/-! ## PNG container codec (`parsePNG` in `script.js`) -/

/-- The 8-byte PNG magic signature. -/
def pngSignature : Buffer := [0x89, 0x50, 0x4E, 0x47, 0x0D, 0x0A, 0x1A, 0x0A]

/-- Chunk type codes as 4-byte sequences. -/
def typeIHDR : Buffer := [0x49, 0x48, 0x44, 0x52]

def typeIDAT : Buffer := [0x49, 0x44, 0x41, 0x54]

def typeIEND : Buffer := [0x49, 0x45, 0x4E, 0x44]

/-- The pseudo-type of the synthetic signature chunk (`'SIG'`). -/
def typeSIG : Buffer := [0x53, 0x49, 0x47]

/-- One parsed chunk record. `length` is the total chunk length
(4 length + 4 type + data + 4 CRC); the signature pseudo-chunk uses
`crcOffset = -1` and no `calculatedCrc`. -/
@[ext]
structure Chunk where
  offset : Nat
  length : Nat
  type : Buffer
  dataOffset : Nat
  dataLength : Nat
  crcOffset : Int
  crc : Nat
  calculatedCrc : Option Nat
  crcValid : Bool
  isCritical : Bool
  isSignature : Bool
  deriving Repr, DecidableEq

/-- The diagnostics `parsePNG` accumulates. -/
inductive ParseError where
  | invalidSignature : ParseError
  | truncatedChunk : Nat → ParseError
  | truncatedTyped : Buffer → Nat → ParseError
  | invalidCRC : Buffer → Nat → ParseError
  | firstChunkNotIHDR : ParseError
  | lastChunkNotIEND : ParseError
  deriving Repr, DecidableEq

/-- One iteration body of the chunk walk of `parsePNG` (the
`while (offset < buffer.length - 4)` loop), with explicit fuel. The fuel
is only a termination device: each iteration advances the offset by at
least 12, so `b.length` units of fuel (see `parseChunksLoop`) are never
exhausted before the loop's own exit conditions fire. -/
def parseChunksLoopFuel : Nat → Buffer → Nat → List Chunk × List ParseError
  | 0, _, _ => ([], [])
  | fuel + 1, b, o =>
    if o + 4 < b.length then
      if o + 8 > b.length then ([], [ParseError.truncatedChunk o])
      else
        let len := readU32BE b o
        let typeBytes := (b.drop (o + 4)).take 4
        if o + (12 + len) > b.length then
          ([], [ParseError.truncatedTyped typeBytes o])
        else
          let stored := readU32BE b (o + 8 + len)
          let calcCrc := crc32 b (o + 4) (4 + len)
          let c : Chunk :=
            { offset := o, length := 12 + len, type := typeBytes,
              dataOffset := o + 8, dataLength := len,
              crcOffset := ((o + 8 + len : Nat) : Int),
              crc := stored, calculatedCrc := some calcCrc,
              crcValid := stored == calcCrc,
              isCritical := decide (65 ≤ typeBytes.getD 0 0 ∧
                typeBytes.getD 0 0 ≤ 90),
              isSignature := false }
          let errs := if c.crcValid then []
            else [ParseError.invalidCRC typeBytes o]
          if typeBytes = typeIEND then ([c], errs)
          else
            let r := parseChunksLoopFuel fuel b (o + (12 + len))
            (c :: r.1, errs ++ r.2)
    else ([], [])

/-- The chunk walk from offset `o`. -/
def parseChunksLoop (b : Buffer) (o : Nat) : List Chunk × List ParseError :=
  parseChunksLoopFuel b.length b o

/-- Exhausted fuel and the loop guard coincide: any fuel at least
`b.length - o` gives the same result. -/
theorem parseChunksLoopFuel_congr (b : Buffer) :
    ∀ (f₁ f₂ o : Nat), b.length - o ≤ f₁ → b.length - o ≤ f₂ →
    parseChunksLoopFuel f₁ b o = parseChunksLoopFuel f₂ b o := by
  intro f₁
  induction f₁ with
  | zero =>
      intro f₂ o h₁ h₂
      cases f₂ with
      | zero => rfl
      | succ f₂ =>
          show ([], []) = parseChunksLoopFuel (f₂ + 1) b o
          unfold parseChunksLoopFuel
          rw [if_neg (by omega)]
  | succ f₁ ih =>
      intro f₂ o h₁ h₂
      cases f₂ with
      | zero =>
          show parseChunksLoopFuel (f₁ + 1) b o = ([], [])
          unfold parseChunksLoopFuel
          rw [if_neg (by omega)]
      | succ f₂ =>
          show parseChunksLoopFuel (f₁ + 1) b o = parseChunksLoopFuel (f₂ + 1) b o
          unfold parseChunksLoopFuel
          by_cases h4 : o + 4 < b.length
          · rw [if_pos h4, if_pos h4]
            by_cases h8 : o + 8 > b.length
            · rw [if_pos h8, if_pos h8]
            · rw [if_neg h8, if_neg h8]
              by_cases htr : o + (12 + readU32BE b o) > b.length
              · rw [if_pos htr, if_pos htr]
              · rw [if_neg htr, if_neg htr]
                by_cases hend : (b.drop (o + 4)).take 4 = typeIEND
                · rw [if_pos hend, if_pos hend]
                · rw [if_neg hend, if_neg hend]
                  rw [ih f₂ (o + (12 + readU32BE b o)) (by omega) (by omega)]
          · rw [if_neg h4, if_neg h4]

/-- The outcome of one step of the chunk walk. -/
inductive StepResult where
  | exit : StepResult
  | truncated : ParseError → StepResult
  | chunk : Chunk → StepResult
  deriving Repr, DecidableEq

/-- One step of the chunk walk at offset `o`, as a function. -/
def stepAt (b : Buffer) (o : Nat) : StepResult :=
  if o + 4 < b.length then
    if o + 8 > b.length then StepResult.truncated (ParseError.truncatedChunk o)
    else
      let len := readU32BE b o
      let typeBytes := (b.drop (o + 4)).take 4
      if o + (12 + len) > b.length then
        StepResult.truncated (ParseError.truncatedTyped typeBytes o)
      else
        StepResult.chunk
          { offset := o, length := 12 + len, type := typeBytes,
            dataOffset := o + 8, dataLength := len,
            crcOffset := ((o + 8 + len : Nat) : Int),
            crc := readU32BE b (o + 8 + len),
            calculatedCrc := some (crc32 b (o + 4) (4 + len)),
            crcValid := readU32BE b (o + 8 + len) == crc32 b (o + 4) (4 + len),
            isCritical := decide (65 ≤ typeBytes.getD 0 0 ∧
              typeBytes.getD 0 0 ≤ 90),
            isSignature := false }
  else StepResult.exit

/-- `parseChunksLoopFuel` with sufficient fuel unfolds through `stepAt`. -/
theorem parseChunksLoopFuel_eq_step (b : Buffer) (o f : Nat)
    (hf : b.length - o ≤ f) :
    parseChunksLoopFuel f b o =
      match stepAt b o with
      | StepResult.exit => ([], [])
      | StepResult.truncated e => ([], [e])
      | StepResult.chunk c =>
          let errs := if c.crcValid then []
            else [ParseError.invalidCRC c.type c.offset]
          if c.type = typeIEND then ([c], errs)
          else
            let r := parseChunksLoop b (c.offset + c.length)
            (c :: r.1, errs ++ r.2) := by
  cases f with
  | zero =>
      show ([], []) = _
      unfold stepAt
      rw [if_neg (by omega)]
  | succ f =>
      unfold parseChunksLoopFuel stepAt
      by_cases h4 : o + 4 < b.length
      · rw [if_pos h4, if_pos h4]
        by_cases h8 : o + 8 > b.length
        · rw [if_pos h8, if_pos h8]
        · rw [if_neg h8, if_neg h8]
          by_cases htr : o + (12 + readU32BE b o) > b.length
          · rw [if_pos htr, if_pos htr]
          · rw [if_neg htr, if_neg htr]
            simp only []
            by_cases hend : (b.drop (o + 4)).take 4 = typeIEND
            · rw [if_pos hend, if_pos hend]
            · rw [if_neg hend, if_neg hend]
              have hrec : parseChunksLoopFuel f b (o + (12 + readU32BE b o)) =
                  parseChunksLoop b (o + (12 + readU32BE b o)) :=
                parseChunksLoopFuel_congr b f b.length _ (by omega) (by omega)
              rw [hrec]
      · rw [if_neg h4, if_neg h4]

/-- `parseChunksLoop` unfolds through `stepAt`. -/
theorem parseChunksLoop_eq_step (b : Buffer) (o : Nat) :
    parseChunksLoop b o =
      match stepAt b o with
      | StepResult.exit => ([], [])
      | StepResult.truncated e => ([], [e])
      | StepResult.chunk c =>
          let errs := if c.crcValid then []
            else [ParseError.invalidCRC c.type c.offset]
          if c.type = typeIEND then ([c], errs)
          else
            let r := parseChunksLoop b (c.offset + c.length)
            (c :: r.1, errs ++ r.2) :=
  parseChunksLoopFuel_eq_step b o b.length (by omega)

/-- The result of `parsePNG`. -/
structure ParseResult where
  chunks : List Chunk
  errors : List ParseError
  isValid : Bool
  deriving Repr, DecidableEq

/-- The synthetic 8-byte signature pseudo-chunk. -/
def sigChunk (valid : Bool) : Chunk :=
  { offset := 0, length := 8, type := typeSIG, dataOffset := 0,
    dataLength := 8, crcOffset := -1, crc := 0, calculatedCrc := none,
    crcValid := valid, isCritical := true, isSignature := true }

/-- `parsePNG(buffer)`: signature check, chunk walk from offset 8,
post-walk structural checks, `isValid` iff no errors. -/
def parsePNG (b : Buffer) : ParseResult :=
  let validSignature := b.take 8 = pngSignature
  let sigErrs : List ParseError :=
    if validSignature then [] else [ParseError.invalidSignature]
  let r := parseChunksLoop b 8
  let chunks := sigChunk validSignature :: r.1
  let structuralErrs : List ParseError :=
    (match r.1 with
     | [] => []
     | c :: _ => if c.type = typeIHDR then [] else [ParseError.firstChunkNotIHDR]) ++
    (if (chunks.getLast (by simp)).type = typeIEND then []
     else [ParseError.lastChunkNotIEND])
  let errors := sigErrs ++ r.2 ++ structuralErrs
  { chunks := chunks, errors := errors, isValid := errors.isEmpty }

/-- `recalculateCRC(buffer, chunk)`: skip the signature pseudo-chunk;
otherwise recompute the CRC over type+data and write its four big-endian
bytes at the chunk's `crcOffset`. -/
def be32Bytes (v : Nat) : Buffer :=
  [v / 2 ^ 24 % 256, v / 2 ^ 16 % 256, v / 2 ^ 8 % 256, v % 256]

/-- Write `bytes` into `b` starting at `off` (out-of-bounds writes are
dropped, as for a typed array). -/
def writeBytes (b : Buffer) (off : Nat) (bytes : Buffer) : Buffer :=
  match bytes with
  | [] => b
  | x :: xs => writeBytes (b.set off x) (off + 1) xs

def recalculateCRC (b : Buffer) (c : Chunk) : Buffer :=
  if c.isSignature then b
  else
    let newCrc := crc32 b (c.offset + 4) (4 + c.dataLength)
    writeBytes b c.crcOffset.toNat (be32Bytes newCrc)

/-- The splice of `recompressAndRebuildBuffer`: replace the byte range
from the first IDAT chunk's offset to the end of the last IDAT chunk by
one freshly serialized IDAT chunk carrying `comp`. Returns `none` when
`chunks` holds no IDAT chunk (the code returns without touching the
buffer). -/
def rebuildWithIDAT (b : Buffer) (chunks : List Chunk) (comp : Buffer) :
    Option Buffer :=
  let idats := chunks.filter (fun c => c.type = typeIDAT)
  match idats with
  | [] => none
  | first :: _ =>
      let lastC := idats.getLastD first
      let beforeIDAT := first.offset
      let afterIDAT := lastC.offset + lastC.length
      let crcVal := crc32 (typeIDAT ++ comp) 0 (4 + comp.length)
      some (b.take beforeIDAT ++ be32Bytes comp.length ++ typeIDAT ++ comp ++
        be32Bytes crcVal ++ b.drop afterIDAT)

/-- `decompressIDAT(buffer, chunks)`: concatenate the data of all IDAT
chunks in order and inflate; `inflate` (the external pako call) is a
parameter, returning `none` on failure. -/
def decompressIDAT (inflate : Buffer → Option Buffer) (b : Buffer)
    (chunks : List Chunk) : Option Buffer :=
  let idats := chunks.filter (fun c => c.type = typeIDAT)
  if idats.isEmpty then none
  else inflate (idats.foldl
    (fun acc c => acc ++ (b.drop c.dataOffset).take c.dataLength) [])

/-! ### Byte-level access lemmas -/

theorem getD_drop (b : Buffer) (o i : Nat) :
    (b.drop o).getD i 0 = b.getD (o + i) 0 := by
  simp [List.getD_eq_getElem?_getD, List.getElem?_drop]

theorem readU32BE_drop (b : Buffer) (o : Nat) :
    readU32BE b o = readU32BE (b.drop o) 0 := by
  unfold readU32BE
  simp [getD_drop]

theorem getD_append_left {b₁ b₂ : Buffer} {i : Nat} (h : i < b₁.length) :
    (b₁ ++ b₂).getD i 0 = b₁.getD i 0 := by
  simp [List.getD_eq_getElem?_getD, List.getElem?_append_left h]

theorem getD_append_right {b₁ b₂ : Buffer} {i : Nat} (h : b₁.length ≤ i) :
    (b₁ ++ b₂).getD i 0 = b₂.getD (i - b₁.length) 0 := by
  simp [List.getD_eq_getElem?_getD, List.getElem?_append_right h]

theorem be32_readback (v : Nat) (rest : Buffer) :
    readU32BE (be32Bytes v ++ rest) 0 = v % 2 ^ 32 := by
  unfold readU32BE be32Bytes
  rw [getD_append_left (by simp), getD_append_left (by simp),
    getD_append_left (by simp), getD_append_left (by simp)]
  simp only [List.getD_cons_zero, List.getD_cons_succ]
  omega

/-- `crc32` depends only on the bytes of its range. -/
theorem crc32_congr (b₁ b₂ : Buffer) (s₁ s₂ n : Nat)
    (h : ∀ i < n, b₁.getD (s₁ + i) 0 = b₂.getD (s₂ + i) 0) :
    crc32 b₁ s₁ n = crc32 b₂ s₂ n := by
  unfold crc32
  congr 1
  apply List.foldl_ext
  intro acc i hi
  rw [h i (List.mem_range.mp hi)]

/-- A buffer below a chunk walk's window: `b₂` agrees with `b₁` on
`[0, W)` and both extend at least to `W`. -/
def AgreeOn (b₁ b₂ : Buffer) (W : Nat) : Prop :=
  W ≤ b₁.length ∧ W ≤ b₂.length ∧ ∀ i < W, b₁.getD i 0 = b₂.getD i 0

/-! ### Chunk-walk structure lemmas -/

theorem stepAt_chunk_props {b : Buffer} {o : Nat} {c : Chunk}
    (h : stepAt b o = StepResult.chunk c) :
    c.offset = o ∧ c.dataLength = readU32BE b o ∧
    c.length = 12 + c.dataLength ∧ c.dataOffset = o + 8 ∧
    c.crcOffset = ((o + 8 + c.dataLength : Nat) : Int) ∧
    c.type = (b.drop (o + 4)).take 4 ∧
    c.crc = readU32BE b (o + 8 + c.dataLength) ∧
    c.calculatedCrc = some (crc32 b (o + 4) (4 + c.dataLength)) ∧
    c.crcValid = (readU32BE b (o + 8 + c.dataLength) ==
      crc32 b (o + 4) (4 + c.dataLength)) ∧
    c.isSignature = false ∧
    o + 4 < b.length ∧ o + c.length ≤ b.length := by
  unfold stepAt at h
  by_cases h4 : o + 4 < b.length
  · simp only [h4, if_true] at h
    by_cases h8 : o + 8 > b.length
    · simp only [h8, if_true] at h
      exact absurd h (by simp)
    · simp only [h8, if_false] at h
      by_cases htr : o + (12 + readU32BE b o) > b.length
      · simp only [htr, if_true] at h
        exact absurd h (by simp)
      · simp only [htr, if_false] at h
        have hc := (StepResult.chunk.injEq _ _).mp h
        subst hc
        refine ⟨rfl, rfl, rfl, rfl, rfl, rfl, rfl, rfl, rfl, rfl, h4,
          show o + (12 + readU32BE b o) ≤ b.length by omega⟩
  · simp only [h4, if_false] at h
    exact absurd h (by simp)

theorem readU32BE_agree {b₁ b₂ : Buffer} {W : Nat}
    (hagree : ∀ i < W, b₁.getD i 0 = b₂.getD i 0) (p : Nat)
    (hp : p + 4 ≤ W) : readU32BE b₂ p = readU32BE b₁ p := by
  unfold readU32BE
  rw [hagree p (by omega), hagree (p + 1) (by omega),
    hagree (p + 2) (by omega), hagree (p + 3) (by omega)]

theorem stepAt_agree {b₁ b₂ : Buffer} {W o : Nat} {c : Chunk}
    (hag : AgreeOn b₁ b₂ W) (h : stepAt b₁ o = StepResult.chunk c)
    (hin : o + c.length ≤ W) : stepAt b₂ o = StepResult.chunk c := by
  obtain ⟨hW₁, hW₂, hagree⟩ := hag
  obtain ⟨hoff, hdl, hlen, hdo, hco, hty, hcrc, hcalc, hval, hsig, h4, hext⟩ :=
    stepAt_chunk_props h
  have hwin : o + (12 + readU32BE b₁ o) ≤ W := by omega
  have hr0 : readU32BE b₂ o = readU32BE b₁ o :=
    readU32BE_agree hagree o (by omega)
  have htake : (b₂.drop (o + 4)).take 4 = (b₁.drop (o + 4)).take 4 := by
    apply List.ext_getElem?
    intro i
    rcases Nat.lt_or_ge i 4 with hi | hi
    · rw [List.getElem?_take_of_lt hi, List.getElem?_take_of_lt hi,
        List.getElem?_drop, List.getElem?_drop]
      have hlt : o + 4 + i < W := by omega
      have h₁ : o + 4 + i < b₁.length := by omega
      have h₂ : o + 4 + i < b₂.length := by omega
      rw [List.getElem?_eq_getElem h₁, List.getElem?_eq_getElem h₂]
      have hv := hagree (o + 4 + i) hlt
      rw [List.getD_eq_getElem b₁ 0 h₁, List.getD_eq_getElem b₂ 0 h₂] at hv
      rw [hv]
    · have l₁ : ((b₁.drop (o + 4)).take 4).length ≤ i := by
        simp only [List.length_take, List.length_drop]
        omega
      have l₂ : ((b₂.drop (o + 4)).take 4).length ≤ i := by
        simp only [List.length_take, List.length_drop]
        omega
      rw [List.getElem?_eq_none l₁, List.getElem?_eq_none l₂]
  have hrc : readU32BE b₂ (o + 8 + readU32BE b₁ o) =
      readU32BE b₁ (o + 8 + readU32BE b₁ o) :=
    readU32BE_agree hagree (o + 8 + readU32BE b₁ o) (by omega)
  have hcc : crc32 b₂ (o + 4) (4 + readU32BE b₁ o) =
      crc32 b₁ (o + 4) (4 + readU32BE b₁ o) := by
    apply crc32_congr
    intro i hi
    exact (hagree (o + 4 + i) (by omega)).symm
  unfold stepAt
  have h4₂ : o + 4 < b₂.length := by omega
  have h8₂ : ¬ o + 8 > b₂.length := by omega
  have htr₂ : ¬ o + (12 + readU32BE b₂ o) > b₂.length := by
    rw [hr0]; omega
  simp only [h4₂, if_true, h8₂, if_false, htr₂]
  unfold stepAt at h
  have h8₁ : ¬ o + 8 > b₁.length := by omega
  have htr₁ : ¬ o + (12 + readU32BE b₁ o) > b₁.length := by omega
  simp only [h4, if_true, h8₁, if_false, htr₁] at h
  rw [hr0, htake, hrc, hcc]
  exact h

/-- The walk from offset `o` produces exactly the chunk records `cs`,
consecutively, arriving at offset `W` without stopping (no IEND and no
truncation among `cs`). -/
inductive WalkTo (b : Buffer) : Nat → Nat → List Chunk → Prop where
  | refl (o : Nat) : WalkTo b o o []
  | step {o W : Nat} {c : Chunk} {cs : List Chunk}
      (hstep : stepAt b o = StepResult.chunk c)
      (hne : c.type ≠ typeIEND)
      (hrest : WalkTo b (o + c.length) W cs) :
      WalkTo b o W (c :: cs)

/-- The per-chunk CRC diagnostics the walk emits for `cs`. -/
def errsOf (cs : List Chunk) : List ParseError :=
  cs.foldr
    (fun c acc =>
      (if c.crcValid then [] else [ParseError.invalidCRC c.type c.offset]) ++ acc)
    []

theorem walkTo_le {b : Buffer} {o W : Nat} {cs : List Chunk}
    (h : WalkTo b o W cs) : o ≤ W := by
  induction h with
  | refl => exact le_refl _
  | step hstep hne hrest ih => omega

theorem walkTo_snoc {b : Buffer} {o W : Nat} {cs : List Chunk} {c : Chunk}
    (h : WalkTo b o W cs) (hstep : stepAt b W = StepResult.chunk c)
    (hne : c.type ≠ typeIEND) : WalkTo b o (W + c.length) (cs ++ [c]) := by
  induction h with
  | refl o => exact WalkTo.step hstep hne (WalkTo.refl _)
  | step hstep' hne' hrest ih =>
      exact WalkTo.step hstep' hne' (ih hstep)

theorem walkTo_decompose {b : Buffer} {o W : Nat} {cs : List Chunk}
    (h : WalkTo b o W cs) :
    parseChunksLoop b o =
      (cs ++ (parseChunksLoop b W).1, errsOf cs ++ (parseChunksLoop b W).2) := by
  induction h with
  | refl o => simp [errsOf]
  | step hstep hne hrest ih =>
      rename_i o W c cs
      rw [parseChunksLoop_eq_step, hstep]
      obtain ⟨hoff, _, _, _, _, _, _, _, _, _, _, _⟩ := stepAt_chunk_props hstep
      simp only [hne, if_false, hoff]
      rw [ih]
      simp [errsOf, List.append_assoc, hoff]

theorem walkTo_agree {b₁ b₂ : Buffer} {o W : Nat} {cs : List Chunk}
    (hag : AgreeOn b₁ b₂ W) (h : WalkTo b₁ o W cs) : WalkTo b₂ o W cs := by
  induction h with
  | refl o => exact WalkTo.refl o
  | step hstep hne hrest ih =>
      refine WalkTo.step (stepAt_agree hag hstep ?_) hne (ih hag)
      have := walkTo_le hrest
      omega

/-- If the walk's output decomposes as `xs ++ c :: ys`, then the walk
reaches `c.offset` producing exactly `xs`, and the step there yields `c`. -/
theorem walk_to_element {b : Buffer} {xs : List Chunk} {o : Nat}
    {ys : List Chunk} {c : Chunk} {es : List ParseError}
    (h : parseChunksLoop b o = (xs ++ c :: ys, es)) :
    WalkTo b o c.offset xs ∧ stepAt b c.offset = StepResult.chunk c := by
  induction xs generalizing o es with
  | nil =>
      rw [parseChunksLoop_eq_step] at h
      cases hstep : stepAt b o with
      | exit =>
          rw [hstep] at h
          exact absurd (congrArg Prod.fst h) (by simp)
      | truncated e =>
          rw [hstep] at h
          exact absurd (congrArg Prod.fst h) (by simp)
      | chunk c₀ =>
          rw [hstep] at h
          simp only [List.nil_append] at h
          have hoff := (stepAt_chunk_props hstep).1
          by_cases hend : c₀.type = typeIEND
          · simp only [hend, if_true] at h
            rw [Prod.mk.injEq] at h
            have hc := (List.cons.injEq c₀ [] c ys).mp h.1
            rw [← hc.1, hoff]
            exact ⟨WalkTo.refl o, hstep⟩
          · simp only [hend, if_false] at h
            rw [Prod.mk.injEq] at h
            have hc := (List.cons.injEq c₀ _ c ys).mp h.1
            rw [← hc.1, hoff]
            exact ⟨WalkTo.refl o, hstep⟩
  | cons x xs ih =>
      rw [parseChunksLoop_eq_step] at h
      cases hstep : stepAt b o with
      | exit =>
          rw [hstep] at h
          exact absurd (congrArg Prod.fst h) (by simp)
      | truncated e =>
          rw [hstep] at h
          exact absurd (congrArg Prod.fst h) (by simp)
      | chunk c₀ =>
          rw [hstep] at h
          simp only [List.cons_append] at h
          have hoff := (stepAt_chunk_props hstep).1
          by_cases hend : c₀.type = typeIEND
          · simp only [hend, if_true] at h
            rw [Prod.mk.injEq] at h
            have hc := (List.cons.injEq c₀ [] x (xs ++ c :: ys)).mp h.1
            exact absurd hc.2.symm (by simp)
          · simp only [hend, if_false] at h
            rw [Prod.mk.injEq] at h
            have hc := (List.cons.injEq c₀ _ x (xs ++ c :: ys)).mp h.1
            have hx : c₀ = x := hc.1
            have hrest : parseChunksLoop b (c₀.offset + c₀.length) =
                (xs ++ c :: ys,
                  (parseChunksLoop b (c₀.offset + c₀.length)).2) := by
              rw [← hc.2]
            obtain ⟨hwalk, hstepc⟩ := ih hrest
            subst hx
            rw [hoff] at hwalk
            exact ⟨WalkTo.step hstep hend hwalk, hstepc⟩

/-! ### Walk translation (parsing a shifted suffix) -/

theorem readU32BE_add_drop (b : Buffer) (o k : Nat) :
    readU32BE b (o + k) = readU32BE (b.drop o) k := by
  unfold readU32BE
  simp only [getD_drop, Nat.add_assoc]

/-- A chunk record is anchored at or after `o` with consistent fields. -/
def ChunkAnchored (o : Nat) (b : Buffer) (c : Chunk) : Prop :=
  o ≤ c.offset ∧ c.dataOffset = c.offset + 8 ∧
  c.crcOffset = ((c.offset + 8 + c.dataLength : Nat) : Int) ∧
  c.length = 12 + c.dataLength ∧ c.offset + c.length ≤ b.length

/-- A parse diagnostic that refers only to offsets at or after `o`. -/
def ErrAnchored (o : Nat) : ParseError → Prop
  | ParseError.truncatedChunk p => o ≤ p
  | ParseError.truncatedTyped _ p => o ≤ p
  | ParseError.invalidCRC _ p => o ≤ p
  | _ => True

theorem parseChunksLoop_anchored (b : Buffer) (o : Nat) :
    (∀ c ∈ (parseChunksLoop b o).1, ChunkAnchored o b c) ∧
    (∀ e ∈ (parseChunksLoop b o).2, ErrAnchored o e) := by
  rw [parseChunksLoop_eq_step]
  cases hstep : stepAt b o with
  | exit => exact ⟨by simp, by simp⟩
  | truncated e =>
      refine ⟨by simp, ?_⟩
      intro e' he'
      simp only [List.mem_singleton] at he'
      subst he'
      unfold stepAt at hstep
      by_cases h4 : o + 4 < b.length
      · simp only [h4, if_true] at hstep
        by_cases h8 : o + 8 > b.length
        · simp only [h8, if_true] at hstep
          cases hstep
          exact le_refl o
        · simp only [h8, if_false] at hstep
          by_cases htr : o + (12 + readU32BE b o) > b.length
          · simp only [htr, if_true] at hstep
            cases hstep
            exact le_refl o
          · simp only [htr, if_false] at hstep
            cases hstep
      · simp only [h4, if_false] at hstep
        cases hstep
  | chunk c =>
      obtain ⟨hoff, hdl, hlen, hdo, hco, hty, hcrc, hcalc, hval, hsig, h4,
        hext⟩ := stepAt_chunk_props hstep
      have hanch : ChunkAnchored o b c := by
        refine ⟨le_of_eq hoff.symm, ?_, ?_, hlen, by omega⟩
        · rw [hdo, hoff]
        · rw [hco, hoff]
      by_cases hend : c.type = typeIEND
      · simp only [hend, if_true]
        refine ⟨?_, ?_⟩
        · intro c' hc'
          simp only [List.mem_singleton] at hc'
          subst hc'
          exact hanch
        · intro e' he'
          by_cases hv : c.crcValid
          · simp [hv] at he'
          · simp [hv] at he'
            subst he'
            simp only [ErrAnchored]
            omega
      · simp only [hend, if_false]
        have hrec := parseChunksLoop_anchored b (c.offset + c.length)
        refine ⟨?_, ?_⟩
        · intro c' hc'
          simp only [List.mem_cons] at hc'
          rcases hc' with hc' | hc'
          · subst hc'
            exact hanch
          · have := hrec.1 c' hc'
            unfold ChunkAnchored at this ⊢
            refine ⟨by omega, this.2⟩
        · intro e' he'
          simp only [List.mem_append] at he'
          rcases he' with he' | he'
          · by_cases hv : c.crcValid
            · simp [hv] at he'
            · simp [hv] at he'
              subst he'
              simp only [ErrAnchored]
              omega
          · have := hrec.2 e' he'
            cases e' with
            | truncatedChunk p => exact le_trans (by omega) this
            | truncatedTyped t p => exact le_trans (by omega) this
            | invalidCRC t p => exact le_trans (by omega) this
            | invalidSignature => trivial
            | firstChunkNotIHDR => trivial
            | lastChunkNotIEND => trivial
termination_by b.length - o
decreasing_by
  have := stepAt_chunk_props hstep
  omega

/-- Translate a chunk record from anchor `o₁` to anchor `o₂`. -/
def shiftChunk (o₁ o₂ : Nat) (c : Chunk) : Chunk :=
  { c with
    offset := o₂ + (c.offset - o₁),
    dataOffset := o₂ + (c.dataOffset - o₁),
    crcOffset := c.crcOffset + (o₂ : Int) - (o₁ : Int) }

/-- Translate a parse diagnostic from anchor `o₁` to anchor `o₂`. -/
def shiftErr (o₁ o₂ : Nat) : ParseError → ParseError
  | ParseError.truncatedChunk p => ParseError.truncatedChunk (o₂ + (p - o₁))
  | ParseError.truncatedTyped t p => ParseError.truncatedTyped t (o₂ + (p - o₁))
  | ParseError.invalidCRC t p => ParseError.invalidCRC t (o₂ + (p - o₁))
  | e => e

theorem stepAt_shift {b₁ b₂ : Buffer} {o₁ o₂ : Nat}
    (hdrop : b₁.drop o₁ = b₂.drop o₂) (h₁ : o₁ ≤ b₁.length)
    (h₂ : o₂ ≤ b₂.length) :
    stepAt b₂ o₂ =
      match stepAt b₁ o₁ with
      | StepResult.exit => StepResult.exit
      | StepResult.truncated e => StepResult.truncated (shiftErr o₁ o₂ e)
      | StepResult.chunk c => StepResult.chunk (shiftChunk o₁ o₂ c) := by
  have hlen : b₁.length - o₁ = b₂.length - o₂ := by
    have := congrArg List.length hdrop
    simpa using this
  have hread : ∀ k, readU32BE b₂ (o₂ + k) = readU32BE b₁ (o₁ + k) := by
    intro k
    rw [readU32BE_add_drop, readU32BE_add_drop, hdrop]
  have hread0 : readU32BE b₂ o₂ = readU32BE b₁ o₁ := by
    have := hread 0
    simpa using this
  have htake : (b₂.drop (o₂ + 4)).take 4 = (b₁.drop (o₁ + 4)).take 4 := by
    rw [← List.drop_drop, ← List.drop_drop, hdrop]
  have hcrcsh : ∀ k n, crc32 b₂ (o₂ + k) n = crc32 b₁ (o₁ + k) n := by
    intro k n
    apply crc32_congr
    intro i _
    have e₂ : o₂ + k + i = o₂ + (k + i) := by omega
    have e₁ : o₁ + k + i = o₁ + (k + i) := by omega
    rw [e₂, e₁, ← getD_drop b₂ o₂ (k + i), ← getD_drop b₁ o₁ (k + i), hdrop]
  unfold stepAt
  by_cases h4 : o₁ + 4 < b₁.length
  · have h4₂ : o₂ + 4 < b₂.length := by omega
    simp only [h4, h4₂, if_true]
    by_cases h8 : o₁ + 8 > b₁.length
    · have h8₂ : o₂ + 8 > b₂.length := by omega
      simp only [h8, h8₂, if_true, shiftErr]
      simp [Nat.sub_self]
    · have h8₂ : ¬ o₂ + 8 > b₂.length := by omega
      simp only [h8, h8₂, if_false]
      rw [hread0]
      by_cases htr : o₁ + (12 + readU32BE b₁ o₁) > b₁.length
      · have htr₂ : o₂ + (12 + readU32BE b₁ o₁) > b₂.length := by omega
        simp only [htr, htr₂, if_true, shiftErr, htake]
        simp [Nat.sub_self]
      · have htr₂ : ¬ o₂ + (12 + readU32BE b₁ o₁) > b₂.length := by omega
        simp only [htr, htr₂, if_false]
        have hr8 : readU32BE b₂ (o₂ + 8 + readU32BE b₁ o₁) =
            readU32BE b₁ (o₁ + 8 + readU32BE b₁ o₁) := by
          have e₂ : o₂ + 8 + readU32BE b₁ o₁ = o₂ + (8 + readU32BE b₁ o₁) := by
            omega
          have e₁ : o₁ + 8 + readU32BE b₁ o₁ = o₁ + (8 + readU32BE b₁ o₁) := by
            omega
          rw [e₂, e₁, hread]
        have hc4 : crc32 b₂ (o₂ + 4) (4 + readU32BE b₁ o₁) =
            crc32 b₁ (o₁ + 4) (4 + readU32BE b₁ o₁) := hcrcsh 4 _
        simp only [htake, hr8, hc4, shiftChunk]
        congr 1
        refine Chunk.ext ?_ ?_ rfl ?_ ?_ ?_ rfl rfl rfl rfl rfl <;> simp
        all_goals omega
  · have h4₂ : ¬ o₂ + 4 < b₂.length := by omega
    simp only [h4, h4₂, if_false]

theorem shiftChunk_congr {o₁ o₂ L : Nat} {b : Buffer} {c : Chunk}
    (h : ChunkAnchored (o₁ + L) b c) :
    shiftChunk (o₁ + L) (o₂ + L) c = shiftChunk o₁ o₂ c := by
  obtain ⟨hge, hdo, hco, _, _⟩ := h
  unfold shiftChunk
  refine Chunk.ext ?_ rfl rfl ?_ rfl ?_ rfl rfl rfl rfl rfl
  · simp only
    omega
  · simp only
    omega
  · simp only [hco]
    push_cast
    ring

theorem shiftErr_congr {o₁ o₂ L : Nat} {e : ParseError}
    (h : ErrAnchored (o₁ + L) e) :
    shiftErr (o₁ + L) (o₂ + L) e = shiftErr o₁ o₂ e := by
  cases e with
  | truncatedChunk p =>
      simp only [ErrAnchored] at h
      simp only [shiftErr]
      congr 1
      omega
  | truncatedTyped t p =>
      simp only [ErrAnchored] at h
      simp only [shiftErr]
      congr 1
      omega
  | invalidCRC t p =>
      simp only [ErrAnchored] at h
      simp only [shiftErr]
      congr 1
      omega
  | invalidSignature => rfl
  | firstChunkNotIHDR => rfl
  | lastChunkNotIEND => rfl

/-- Parsing a suffix-identical region at a different anchor yields the
same chunks and diagnostics, translated by the anchor difference. -/
theorem parseChunksLoop_shift (b₁ b₂ : Buffer) (o₁ o₂ : Nat)
    (hdrop : b₁.drop o₁ = b₂.drop o₂) (h₁ : o₁ ≤ b₁.length)
    (h₂ : o₂ ≤ b₂.length) :
    parseChunksLoop b₂ o₂ =
      ((parseChunksLoop b₁ o₁).1.map (shiftChunk o₁ o₂),
       (parseChunksLoop b₁ o₁).2.map (shiftErr o₁ o₂)) := by
  rw [parseChunksLoop_eq_step b₁ o₁, parseChunksLoop_eq_step b₂ o₂,
    stepAt_shift hdrop h₁ h₂]
  cases hstep : stepAt b₁ o₁ with
  | exit => simp
  | truncated e => simp
  | chunk c =>
      obtain ⟨hoff, hdl, hlen, hdo, hco, hty, hcrc, hcalc, hval, hsig, h4,
        hext⟩ := stepAt_chunk_props hstep
      simp only
      have hty' : (shiftChunk o₁ o₂ c).type = c.type := rfl
      have hval' : (shiftChunk o₁ o₂ c).crcValid = c.crcValid := rfl
      rw [hty', hval']
      by_cases hend : c.type = typeIEND
      · simp only [hend, if_true]
        by_cases hv : c.crcValid
        · simp [hv]
        · simp only [hv, Bool.false_eq_true, if_false]
          simp only [List.map_cons, List.map_nil, shiftErr, shiftChunk]
      · simp only [hend, if_false]
        have hrec := parseChunksLoop_shift b₁ b₂ (o₁ + c.length)
          (o₂ + c.length)
          (by rw [← List.drop_drop, ← List.drop_drop, hdrop])
          (by omega)
          (by
            have hl := congrArg List.length hdrop
            simp only [List.length_drop] at hl
            omega)
        have hoffsh : (shiftChunk o₁ o₂ c).offset + (shiftChunk o₁ o₂ c).length =
            o₂ + c.length := by
          simp only [shiftChunk, hoff, Nat.sub_self, Nat.add_zero]
        rw [hoffsh, hoff, hrec]
        have hanch := parseChunksLoop_anchored b₁ (o₁ + c.length)
        have hmapc : (parseChunksLoop b₁ (o₁ + c.length)).1.map
            (shiftChunk (o₁ + c.length) (o₂ + c.length)) =
            (parseChunksLoop b₁ (o₁ + c.length)).1.map (shiftChunk o₁ o₂) := by
          apply List.map_congr_left
          intro x hx
          exact shiftChunk_congr (hanch.1 x hx)
        have hmape : (parseChunksLoop b₁ (o₁ + c.length)).2.map
            (shiftErr (o₁ + c.length) (o₂ + c.length)) =
            (parseChunksLoop b₁ (o₁ + c.length)).2.map (shiftErr o₁ o₂) := by
          apply List.map_congr_left
          intro x hx
          exact shiftErr_congr (hanch.2 x hx)
        rw [hmapc, hmape]
        by_cases hv : c.crcValid
        · simp [hv]
        · simp only [hv, Bool.false_eq_true, if_false]
          simp only [List.map_cons, List.map_append, List.map_cons,
            List.map_nil, shiftErr, shiftChunk]
          simp only [hoff, Nat.sub_self, Nat.add_zero]
termination_by b₁.length - o₁
decreasing_by
  have := stepAt_chunk_props hstep
  omega

/-! ### Helpers for the rebuild/reparse theorem -/

theorem crcBitStep_lt {c : Nat} (h : c < 2 ^ 32) : crcBitStep c < 2 ^ 32 := by
  unfold crcBitStep CRC_POLY
  split
  · exact Nat.xor_lt_two_pow (by norm_num) (by omega)
  · omega

theorem crcTable_lt (n : Nat) (h : n < 2 ^ 32) : crcTable n < 2 ^ 32 := by
  unfold crcTable
  have : ∀ k (c : Nat), c < 2 ^ 32 → crcBitStep^[k] c < 2 ^ 32 := by
    intro k
    induction k with
    | zero => intro c hc; simpa using hc
    | succ k ih =>
        intro c hc
        rw [Function.iterate_succ_apply]
        exact ih _ (crcBitStep_lt hc)
  exact this 8 n h

theorem crc32Update_lt (crc d : Nat) (h : crc < 2 ^ 32) :
    crc32Update crc d < 2 ^ 32 := by
  unfold crc32Update
  exact Nat.xor_lt_two_pow
    (crcTable_lt _ (lt_of_lt_of_le (Nat.mod_lt _ (by norm_num)) (by norm_num)))
    (by omega)

theorem crc32_lt (b : Buffer) (s n : Nat) : crc32 b s n < 2 ^ 32 := by
  unfold crc32
  apply Nat.xor_lt_two_pow _ (by norm_num)
  have : ∀ (l : List Nat) (c : Nat), c < 2 ^ 32 →
      l.foldl (fun acc i => crc32Update acc (b.getD (s + i) 0)) c < 2 ^ 32 := by
    intro l
    induction l with
    | nil => intro c hc; simpa using hc
    | cons x xs ih =>
        intro c hc
        simp only [List.foldl_cons]
        exact ih _ (crc32Update_lt _ _ hc)
  exact this _ _ (by norm_num)

theorem getD_take {b : Buffer} {n i : Nat} (h : i < n) :
    (b.take n).getD i 0 = b.getD i 0 := by
  simp [List.getD_eq_getElem?_getD, List.getElem?_take_of_lt h]

theorem slice_agree {b₁ b₂ : Buffer} {W : Nat} (hag : AgreeOn b₁ b₂ W)
    {o k : Nat} (hk : o + k ≤ W) :
    (b₁.drop o).take k = (b₂.drop o).take k := by
  obtain ⟨hW₁, hW₂, hagree⟩ := hag
  apply List.ext_getElem?
  intro i
  rcases Nat.lt_or_ge i k with hi | hi
  · rw [List.getElem?_take_of_lt hi, List.getElem?_take_of_lt hi,
      List.getElem?_drop, List.getElem?_drop]
    have h₁ : o + i < b₁.length := by omega
    have h₂ : o + i < b₂.length := by omega
    rw [List.getElem?_eq_getElem h₁, List.getElem?_eq_getElem h₂]
    have hv := hagree (o + i) (by omega)
    rw [List.getD_eq_getElem b₁ 0 h₁, List.getD_eq_getElem b₂ 0 h₂] at hv
    rw [hv]
  · rw [List.getElem?_eq_none (by simp only [List.length_take]; omega),
      List.getElem?_eq_none (by simp only [List.length_take]; omega)]

theorem walkTo_extent {b : Buffer} {o W : Nat} {cs : List Chunk}
    (h : WalkTo b o W cs) :
    ∀ c ∈ cs, o ≤ c.offset ∧ c.offset + c.length ≤ W := by
  induction h with
  | refl o => simp
  | step hstep hne hrest ih =>
      rename_i o W c₀ cs₀
      intro c hc
      have hoff := (stepAt_chunk_props hstep).1
      have hW := walkTo_le hrest
      rcases List.mem_cons.mp hc with hc | hc
      · subst hc
        constructor
        · omega
        · omega
      · have := ih c hc
        constructor
        · omega
        · exact this.2

/-- The buffer produced by the IDAT splice: prefix up to the first IDAT,
one serialized IDAT chunk carrying `comp`, suffix from the end of the
last IDAT. -/
def rebuiltBuffer (b : Buffer) (W A : Nat) (comp : Buffer) : Buffer :=
  b.take W ++ be32Bytes comp.length ++ typeIDAT ++ comp ++
    be32Bytes (crc32 (typeIDAT ++ comp) 0 (4 + comp.length)) ++ b.drop A

/-- The chunk record the fresh parse produces for the spliced IDAT. -/
def newIdatChunk (W : Nat) (comp : Buffer) : Chunk :=
  { offset := W, length := 12 + comp.length, type := typeIDAT,
    dataOffset := W + 8, dataLength := comp.length,
    crcOffset := ((W + 8 + comp.length : Nat) : Int),
    crc := crc32 (typeIDAT ++ comp) 0 (4 + comp.length),
    calculatedCrc := some (crc32 (typeIDAT ++ comp) 0 (4 + comp.length)),
    crcValid := true, isCritical := true, isSignature := false }

theorem length_rebuiltBuffer (b : Buffer) (W A : Nat) (comp : Buffer)
    (hW : W ≤ b.length) :
    (rebuiltBuffer b W A comp).length = W + 12 + comp.length +
      (b.length - A) := by
  simp only [rebuiltBuffer, List.length_append, List.length_take,
    List.length_drop, be32Bytes, typeIDAT]
  simp only [List.length_cons, List.length_nil]
  omega

theorem drop_rebuiltBuffer (b : Buffer) (W A : Nat) (comp : Buffer)
    (hW : W ≤ b.length) :
    (rebuiltBuffer b W A comp).drop W =
      be32Bytes comp.length ++ typeIDAT ++ comp ++
        be32Bytes (crc32 (typeIDAT ++ comp) 0 (4 + comp.length)) ++
        b.drop A := by
  unfold rebuiltBuffer
  rw [List.append_assoc, List.append_assoc, List.append_assoc,
    List.append_assoc,
    List.drop_left' (by simp only [List.length_take]; omega)]
  simp [List.append_assoc]

theorem take_rebuiltBuffer (b : Buffer) (W A : Nat) (comp : Buffer)
    (hW : W ≤ b.length) :
    (rebuiltBuffer b W A comp).take W = b.take W := by
  unfold rebuiltBuffer
  rw [List.append_assoc, List.append_assoc, List.append_assoc,
    List.append_assoc,
    List.take_left' (by simp only [List.length_take]; omega)]

theorem drop_rebuiltBuffer_after (b : Buffer) (W A : Nat) (comp : Buffer)
    (hW : W ≤ b.length) :
    (rebuiltBuffer b W A comp).drop (W + 12 + comp.length) = b.drop A := by
  unfold rebuiltBuffer
  rw [List.drop_left' ?_]
  simp only [List.length_append, List.length_take, be32Bytes, typeIDAT,
    List.length_cons, List.length_nil]
  omega

theorem stepAt_rebuilt (b : Buffer) (W A : Nat) (comp : Buffer)
    (hW : W ≤ b.length) (hcomp : comp.length < 2 ^ 32) :
    stepAt (rebuiltBuffer b W A comp) W =
      StepResult.chunk (newIdatChunk W comp) := by
  set nb := rebuiltBuffer b W A comp with hnb
  have hdropW := drop_rebuiltBuffer b W A comp hW
  have hlen := length_rebuiltBuffer b W A comp hW
  rw [← hnb] at hdropW hlen
  have hr0 : readU32BE nb W = comp.length := by
    have h := readU32BE_add_drop nb W 0
    simp only [Nat.add_zero] at h
    rw [h, hdropW]
    simp only [List.append_assoc]
    rw [be32_readback, Nat.mod_eq_of_lt hcomp]
  have htype : (nb.drop (W + 4)).take 4 = typeIDAT := by
    rw [← List.drop_drop, hdropW]
    simp only [List.append_assoc]
    rw [List.drop_left' (by simp [be32Bytes]),
      List.take_left' (by simp [typeIDAT])]
  have hstored : readU32BE nb (W + 8 + comp.length) =
      crc32 (typeIDAT ++ comp) 0 (4 + comp.length) := by
    have e : W + 8 + comp.length = W + (8 + comp.length) := by omega
    rw [e, readU32BE_add_drop, hdropW]
    have h := readU32BE_add_drop
      (be32Bytes comp.length ++ typeIDAT ++ comp ++
        be32Bytes (crc32 (typeIDAT ++ comp) 0 (4 + comp.length)) ++
        b.drop A) (8 + comp.length) 0
    simp only [Nat.add_zero] at h
    rw [h]
    have hdrop8 : (be32Bytes comp.length ++ typeIDAT ++ comp ++
        be32Bytes (crc32 (typeIDAT ++ comp) 0 (4 + comp.length)) ++
        b.drop A).drop (8 + comp.length) =
        be32Bytes (crc32 (typeIDAT ++ comp) 0 (4 + comp.length)) ++
          b.drop A := by
      rw [List.append_assoc]
      exact List.drop_left'
        (by simp only [List.length_append, be32Bytes, typeIDAT,
          List.length_cons, List.length_nil])
    rw [hdrop8, be32_readback, Nat.mod_eq_of_lt (crc32_lt _ _ _)]
  have hcalc : crc32 nb (W + 4) (4 + comp.length) =
      crc32 (typeIDAT ++ comp) 0 (4 + comp.length) := by
    apply crc32_congr
    intro i hi
    have e : W + 4 + i = W + (4 + i) := by omega
    rw [e, ← getD_drop, hdropW, Nat.zero_add]
    simp only [List.append_assoc]
    rw [getD_append_right (by simp [be32Bytes])]
    have e2 : 4 + i - (be32Bytes comp.length).length = i := by
      simp [be32Bytes]
    rw [e2]
    rcases Nat.lt_or_ge i 4 with h4i | h4i
    · rw [getD_append_left (by simp [typeIDAT]; omega),
        getD_append_left (by simp [typeIDAT]; omega)]
    · rw [getD_append_right (by simp [typeIDAT]; omega),
        @getD_append_right typeIDAT comp i (by simp [typeIDAT]; omega)]
      have e3 : (typeIDAT).length = 4 := by simp [typeIDAT]
      rw [e3, getD_append_left (by omega)]
  unfold stepAt
  have h4 : W + 4 < nb.length := by omega
  have h8 : ¬ W + 8 > nb.length := by omega
  simp only [h4, if_true, h8, if_false, hr0]
  have htr : ¬ W + (12 + comp.length) > nb.length := by omega
  simp only [htr, if_false, htype, hstored, hcalc]
  unfold newIdatChunk
  congr 1
  refine Chunk.ext rfl rfl rfl rfl rfl rfl rfl rfl ?_ ?_ rfl
  · simp [Nat.beq_refl]
  · simp only [typeIDAT]
    decide

/-- The IDAT chunk filter used by the rebuild and the decompressor. -/
theorem filter_idat_decomp (sv : Bool) (pre mid post : List Chunk)
    (hpre : ∀ c ∈ pre, c.type ≠ typeIDAT)
    (hpost : ∀ c ∈ post, c.type ≠ typeIDAT) :
    (sigChunk sv :: (pre ++ mid ++ post)).filter
        (fun c => c.type = typeIDAT) =
      mid.filter (fun c => c.type = typeIDAT) := by
  have hfpre : pre.filter (fun c => c.type = typeIDAT) = [] :=
    List.filter_eq_nil_iff.mpr (fun a ha => by simpa using hpre a ha)
  have hfpost : post.filter (fun c => c.type = typeIDAT) = [] :=
    List.filter_eq_nil_iff.mpr (fun a ha => by simpa using hpost a ha)
  rw [List.filter_cons_of_neg (by simp [sigChunk, typeSIG, typeIDAT]),
    List.filter_append, List.filter_append, hfpre, hfpost]
  simp

theorem rebuildWithIDAT_eq (b comp : Buffer) (sv : Bool)
    (pre mid post : List Chunk) (c₀ cL : Chunk) (mid' mid'' : List Chunk)
    (hmid1 : mid = c₀ :: mid') (hmid2 : mid = mid'' ++ [cL])
    (hc₀ : c₀.type = typeIDAT) (hcL : cL.type = typeIDAT)
    (hpre : ∀ c ∈ pre, c.type ≠ typeIDAT)
    (hpost : ∀ c ∈ post, c.type ≠ typeIDAT) :
    rebuildWithIDAT b (sigChunk sv :: (pre ++ mid ++ post)) comp =
      some (rebuiltBuffer b c₀.offset (cL.offset + cL.length) comp) := by
  have hf1 : mid.filter (fun c => c.type = typeIDAT) =
      c₀ :: mid'.filter (fun c => c.type = typeIDAT) := by
    rw [hmid1, List.filter_cons_of_pos (by simp [hc₀])]
  have hf2 : mid.filter (fun c => c.type = typeIDAT) =
      (mid''.filter (fun c => c.type = typeIDAT)) ++ [cL] := by
    rw [hmid2, List.filter_append]
    simp [hcL]
  have hlast : (c₀ :: mid'.filter (fun c => c.type = typeIDAT)).getLastD c₀ =
      cL := by
    rw [← hf1, hf2, List.getLastD_concat]
  unfold rebuildWithIDAT
  rw [filter_idat_decomp sv pre mid post hpre hpost, hf1]
  simp only [hlast]
  rfl

theorem reparse_rebuilt (b comp : Buffer)
    (pre mid post : List Chunk) (es : List ParseError)
    (c₀ cL : Chunk) (mid' mid'' : List Chunk)
    (hmid1 : mid = c₀ :: mid') (hmid2 : mid = mid'' ++ [cL])
    (h1 : parseChunksLoop b 8 = (pre ++ mid ++ post, es))
    (_hc₀ : c₀.type = typeIDAT) (hcL : cL.type = typeIDAT)
    (hcomp : comp.length < 2 ^ 32) :
    parseChunksLoop (rebuiltBuffer b c₀.offset (cL.offset + cL.length) comp)
        8 =
      (pre ++ newIdatChunk c₀.offset comp ::
        post.map (shiftChunk (cL.offset + cL.length)
          (c₀.offset + 12 + comp.length)),
       errsOf pre ++ (parseChunksLoop b (cL.offset + cL.length)).2.map
         (shiftErr (cL.offset + cL.length)
           (c₀.offset + 12 + comp.length))) ∧
    (parseChunksLoop b (cL.offset + cL.length)).1 = post ∧
    8 ≤ c₀.offset ∧ c₀.offset + c₀.length ≤ b.length ∧
    cL.offset + cL.length ≤ b.length := by
  have h1a : parseChunksLoop b 8 = (pre ++ c₀ :: (mid' ++ post), es) := by
    rw [h1, hmid1]
    simp [List.append_assoc]
  obtain ⟨hwalkPre, hstep₀⟩ := walk_to_element h1a
  have h1b : parseChunksLoop b 8 = ((pre ++ mid'') ++ cL :: post, es) := by
    rw [h1, hmid2]
    simp [List.append_assoc]
  obtain ⟨hwalkMid, hstepL⟩ := walk_to_element h1b
  have hp₀ := stepAt_chunk_props hstep₀
  have hpL := stepAt_chunk_props hstepL
  have hW8 : 8 ≤ c₀.offset := walkTo_le hwalkPre
  have hWle : c₀.offset ≤ b.length := by omega
  have hAle : cL.offset + cL.length ≤ b.length := by omega
  have hwalkA : WalkTo b 8 (cL.offset + cL.length) (pre ++ mid) := by
    have hsnoc := walkTo_snoc hwalkMid hstepL (by rw [hcL]; decide)
    rw [hmid2, ← List.append_assoc]
    exact hsnoc
  have hpost_eq : (parseChunksLoop b (cL.offset + cL.length)).1 = post := by
    have hdec := walkTo_decompose hwalkA
    have hpair := h1.symm.trans hdec
    have hfst := congrArg Prod.fst hpair
    simp only at hfst
    exact (List.append_cancel_left hfst).symm
  have hlen := length_rebuiltBuffer b c₀.offset (cL.offset + cL.length) comp
    hWle
  have htake := take_rebuiltBuffer b c₀.offset (cL.offset + cL.length) comp
    hWle
  have hag : AgreeOn b
      (rebuiltBuffer b c₀.offset (cL.offset + cL.length) comp) c₀.offset := by
    refine ⟨hWle, by omega, ?_⟩
    intro i hi
    rw [← getD_take hi, ← getD_take (b := rebuiltBuffer b c₀.offset
      (cL.offset + cL.length) comp) hi, htake]
  have hwalkPre' := walkTo_agree hag hwalkPre
  have hdecNew := walkTo_decompose hwalkPre'
  have hstepW := stepAt_rebuilt b c₀.offset (cL.offset + cL.length) comp
    hWle hcomp
  have hY : parseChunksLoop
      (rebuiltBuffer b c₀.offset (cL.offset + cL.length) comp) c₀.offset =
      (newIdatChunk c₀.offset comp ::
        (parseChunksLoop (rebuiltBuffer b c₀.offset (cL.offset + cL.length)
          comp) (c₀.offset + 12 + comp.length)).1,
       (parseChunksLoop (rebuiltBuffer b c₀.offset (cL.offset + cL.length)
          comp) (c₀.offset + 12 + comp.length)).2) := by
    rw [parseChunksLoop_eq_step, hstepW]
    have hne : ¬ (newIdatChunk c₀.offset comp).type = typeIEND := by
      simp [newIdatChunk, typeIDAT, typeIEND]
    have hval : (newIdatChunk c₀.offset comp).crcValid = true := rfl
    simp only [hne, if_false, hval, if_true]
    have hoe : (newIdatChunk c₀.offset comp).offset +
        (newIdatChunk c₀.offset comp).length =
        c₀.offset + 12 + comp.length := by
      simp only [newIdatChunk]
      omega
    rw [hoe]
    simp
  have hdropAfter := drop_rebuiltBuffer_after b c₀.offset
    (cL.offset + cL.length) comp hWle
  have hZ := parseChunksLoop_shift b
    (rebuiltBuffer b c₀.offset (cL.offset + cL.length) comp)
    (cL.offset + cL.length) (c₀.offset + 12 + comp.length)
    hdropAfter.symm hAle (by omega)
  refine ⟨?_, hpost_eq, hW8, by omega, hAle⟩
  rw [hdecNew, hY, hZ, hpost_eq]

/-- The data bytes of the spliced IDAT chunk are exactly `comp`. -/
theorem rebuilt_idat_data (b : Buffer) (W A : Nat) (comp : Buffer)
    (hW : W ≤ b.length) :
    ((rebuiltBuffer b W A comp).drop (W + 8)).take comp.length = comp := by
  have h8 : (rebuiltBuffer b W A comp).drop (W + 8) =
      comp ++ (be32Bytes (crc32 (typeIDAT ++ comp) 0 (4 + comp.length)) ++
        b.drop A) := by
    rw [← List.drop_drop, drop_rebuiltBuffer b W A comp hW]
    simp only [List.append_assoc]
    rw [← List.append_assoc (be32Bytes comp.length) typeIDAT]
    exact List.drop_left' (by simp [be32Bytes, typeIDAT])
  rw [h8, List.take_left' rfl]

/-- **C5.** Rebuilding with a new compressed stream replaces the
contiguous IDAT run by exactly one IDAT chunk carrying those bytes with a
recomputed length field and CRC; every byte before the first original
IDAT chunk and from the end of the last original IDAT chunk onward is
unchanged; a fresh parse reports the new IDAT chunk (with a valid CRC) as
the only IDAT chunk, and every non-IDAT chunk of the fresh parse is
byte-identical to its original. -/
theorem rebuild_idat_spec (b comp : Buffer)
    (pre idats post : List Chunk) (es : List ParseError)
    (hparse : parseChunksLoop b 8 = (pre ++ idats ++ post, es))
    (hne : idats ≠ [])
    (hidat : ∀ c ∈ idats, c.type = typeIDAT)
    (hpre : ∀ c ∈ pre, c.type ≠ typeIDAT)
    (hpost : ∀ c ∈ post, c.type ≠ typeIDAT)
    (hcomp : comp.length < 2 ^ 32) :
    ∃ new,
      (∀ sv : Bool,
        rebuildWithIDAT b (sigChunk sv :: (pre ++ idats ++ post)) comp =
          some new) ∧
      new.take (idats.head hne).offset = b.take (idats.head hne).offset ∧
      new.drop ((idats.head hne).offset + 12 + comp.length) =
        b.drop ((idats.getLast hne).offset + (idats.getLast hne).length) ∧
      (parsePNG new).chunks =
        sigChunk (b.take 8 = pngSignature) :: pre ++
          newIdatChunk (idats.head hne).offset comp ::
          post.map (shiftChunk
            ((idats.getLast hne).offset + (idats.getLast hne).length)
            ((idats.head hne).offset + 12 + comp.length)) ∧
      (newIdatChunk (idats.head hne).offset comp).type = typeIDAT ∧
      (newIdatChunk (idats.head hne).offset comp).crcValid = true ∧
      (newIdatChunk (idats.head hne).offset comp).dataLength =
        comp.length ∧
      (new.drop
        (newIdatChunk (idats.head hne).offset comp).dataOffset).take
        comp.length = comp ∧
      (parsePNG new).chunks.filter (fun c => c.type = typeIDAT) =
        [newIdatChunk (idats.head hne).offset comp] ∧
      (∀ c ∈ pre, (new.drop c.offset).take c.length =
        (b.drop c.offset).take c.length) ∧
      (∀ c ∈ post,
        (new.drop (shiftChunk
          ((idats.getLast hne).offset + (idats.getLast hne).length)
          ((idats.head hne).offset + 12 + comp.length) c).offset).take
          c.length = (b.drop c.offset).take c.length) := by
  set c₀ := idats.head hne with hc₀def
  set cL := idats.getLast hne with hcLdef
  have hmid1 : idats = c₀ :: idats.tail := (List.head_cons_tail idats hne).symm
  have hmid2 : idats = idats.dropLast ++ [cL] :=
    (List.dropLast_append_getLast hne).symm
  have hc₀ : c₀.type = typeIDAT := hidat c₀ (List.head_mem hne)
  have hcL : cL.type = typeIDAT := hidat cL (List.getLast_mem hne)
  obtain ⟨hreparse, hpost_eq, hW8, hWext, hAle⟩ := reparse_rebuilt b comp
    pre idats post es c₀ cL idats.tail idats.dropLast hmid1 hmid2 hparse
    hc₀ hcL hcomp
  have hWle : c₀.offset ≤ b.length := by omega
  set W := c₀.offset
  set A := cL.offset + cL.length
  set nb := rebuiltBuffer b W A comp with hnbdef
  have hsig : nb.take 8 = b.take 8 := by
    have h := take_rebuiltBuffer b W A comp hWle
    have h2 : nb.take 8 = (nb.take W).take 8 := by
      rw [List.take_take, Nat.min_eq_left hW8]
    rw [h2, h, List.take_take, Nat.min_eq_left hW8]
  have hchunks : (parsePNG nb).chunks =
      sigChunk (b.take 8 = pngSignature) :: pre ++
        newIdatChunk W comp ::
        post.map (shiftChunk A (W + 12 + comp.length)) := by
    unfold parsePNG
    simp only
    rw [hreparse, hsig]
    simp [List.cons_append]
  have hag : AgreeOn b nb W := by
    refine ⟨hWle, ?_, ?_⟩
    · have hlen := length_rebuiltBuffer b W A comp hWle
      rw [hnbdef]
      omega
    · intro i hi
      have htk := take_rebuiltBuffer b W A comp hWle
      rw [← getD_take hi, ← getD_take (b := nb) hi, htk]
  have h1a : parseChunksLoop b 8 = (pre ++ c₀ :: (idats.tail ++ post), es) := by
    rw [hparse, hmid1]
    simp [List.append_assoc]
  obtain ⟨hwalkPre, _⟩ := walk_to_element h1a
  refine ⟨nb, ?_, ?_, ?_, hchunks, rfl, rfl, rfl, ?_, ?_, ?_, ?_⟩
  · intro sv
    exact rebuildWithIDAT_eq b comp sv pre idats post c₀ cL idats.tail
      idats.dropLast hmid1 hmid2 hc₀ hcL hpre hpost
  · exact take_rebuiltBuffer b W A comp hWle
  · exact drop_rebuiltBuffer_after b W A comp hWle
  · exact rebuilt_idat_data b W A comp hWle
  · rw [hchunks]
    have hfpre : pre.filter (fun c => c.type = typeIDAT) = [] :=
      List.filter_eq_nil_iff.mpr (fun a ha => by simpa using hpre a ha)
    have hfmap : (post.map (shiftChunk A (W + 12 + comp.length))).filter
        (fun c => c.type = typeIDAT) = [] := by
      refine List.filter_eq_nil_iff.mpr ?_
      intro a ha
      rcases List.mem_map.mp ha with ⟨c, hc, hac⟩
      subst hac
      simpa [shiftChunk] using hpost c hc
    have hs1 : (sigChunk (b.take 8 = pngSignature) :: pre).filter
          (fun c => c.type = typeIDAT) =
        pre.filter (fun c => c.type = typeIDAT) :=
      List.filter_cons_of_neg (by simp [sigChunk, typeSIG, typeIDAT])
    have hs2 : (newIdatChunk W comp ::
        post.map (shiftChunk A (W + 12 + comp.length))).filter
          (fun c => c.type = typeIDAT) =
        newIdatChunk W comp ::
          (post.map (shiftChunk A (W + 12 + comp.length))).filter
            (fun c => c.type = typeIDAT) :=
      List.filter_cons_of_pos (by simp [newIdatChunk])
    rw [List.filter_append, hs1, hfpre, hs2, hfmap]
    simp
  · intro c hc
    have hext := walkTo_extent hwalkPre c hc
    exact (slice_agree hag (by omega)).symm
  · intro c hc
    have hanch := (parseChunksLoop_anchored b A).1 c (by rw [hpost_eq]; exact hc)
    obtain ⟨hge, _, _, _, hextb⟩ := hanch
    have hoffsh : (shiftChunk A (W + 12 + comp.length) c).offset =
        (W + 12 + comp.length) + (c.offset - A) := rfl
    have hdropA := drop_rebuiltBuffer_after b W A comp hWle
    have hsfx : nb.drop ((W + 12 + comp.length) + (c.offset - A)) =
        b.drop c.offset := by
      rw [← List.drop_drop, hdropA, List.drop_drop]
      congr 1
      omega
    rw [hoffsh, hsfx]

/-- A small test container: signature, an IHDR-typed chunk, one IDAT
chunk with a single data byte, and an IEND chunk (stored CRCs arbitrary —
CRC mismatches are non-fatal diagnostics). -/
def tb : Buffer :=
  pngSignature ++ ([0, 0, 0, 0] ++ typeIHDR ++ [1, 2, 3, 4]) ++
  ([0, 0, 0, 1] ++ typeIDAT ++ [5] ++ [9, 9, 9, 9]) ++
  ([0, 0, 0, 0] ++ typeIEND ++ [7, 7, 7, 7])

def tbChunks : List Chunk := (parseChunksLoop tb 8).1

def tbErrs : List ParseError := (parseChunksLoop tb 8).2

def tbPre : List Chunk := tbChunks.take 1

def tbIdats : List Chunk := (tbChunks.drop 1).take 1

def tbPost : List Chunk := tbChunks.drop 2

set_option maxRecDepth 40000 in
/-- Witness for C5: the concrete container `tb` with new compressed
byte string `[9]`. -/
theorem rebuild_idat_spec_witness :
    (parseChunksLoop tb 8 = (tbPre ++ tbIdats ++ tbPost, tbErrs) ∧
      tbIdats ≠ [] ∧
      (∀ c ∈ tbIdats, c.type = typeIDAT) ∧
      (∀ c ∈ tbPre, c.type ≠ typeIDAT) ∧
      (∀ c ∈ tbPost, c.type ≠ typeIDAT) ∧
      ([9] : Buffer).length < 2 ^ 32) ∧
    (∃ new,
      (∀ sv : Bool,
        rebuildWithIDAT tb (sigChunk sv :: (tbPre ++ tbIdats ++ tbPost)) [9] =
          some new) ∧
      new.take (tbIdats.head (by decide)).offset =
        tb.take (tbIdats.head (by decide)).offset ∧
      new.drop ((tbIdats.head (by decide)).offset + 12 +
          ([9] : Buffer).length) =
        tb.drop ((tbIdats.getLast (by decide)).offset +
          (tbIdats.getLast (by decide)).length) ∧
      (parsePNG new).chunks =
        sigChunk (tb.take 8 = pngSignature) :: tbPre ++
          newIdatChunk (tbIdats.head (by decide)).offset [9] ::
          tbPost.map (shiftChunk
            ((tbIdats.getLast (by decide)).offset +
              (tbIdats.getLast (by decide)).length)
            ((tbIdats.head (by decide)).offset + 12 +
              ([9] : Buffer).length)) ∧
      (newIdatChunk (tbIdats.head (by decide)).offset [9]).type =
        typeIDAT ∧
      (newIdatChunk (tbIdats.head (by decide)).offset [9]).crcValid =
        true ∧
      (newIdatChunk (tbIdats.head (by decide)).offset [9]).dataLength =
        ([9] : Buffer).length ∧
      (new.drop
        (newIdatChunk (tbIdats.head (by decide)).offset [9]).dataOffset).take
        ([9] : Buffer).length = [9] ∧
      (parsePNG new).chunks.filter (fun c => c.type = typeIDAT) =
        [newIdatChunk (tbIdats.head (by decide)).offset [9]] ∧
      (∀ c ∈ tbPre, (new.drop c.offset).take c.length =
        (tb.drop c.offset).take c.length) ∧
      (∀ c ∈ tbPost,
        (new.drop (shiftChunk
          ((tbIdats.getLast (by decide)).offset +
            (tbIdats.getLast (by decide)).length)
          ((tbIdats.head (by decide)).offset + 12 + ([9] : Buffer).length)
          c).offset).take c.length = (tb.drop c.offset).take c.length)) :=
  ⟨⟨by decide, by decide, by decide, by decide, by decide, by decide⟩,
    rebuild_idat_spec tb [9] tbPre tbIdats tbPost tbErrs (by decide)
      (by decide) (by decide) (by decide) (by decide) (by decide)⟩

/-! ### Loading: pixel-mode decode (C6) -/

/-- `parseIHDR(buffer, chunks)`: find the IHDR chunk, slice 13 payload
bytes at its data offset and derive the geometry; `null` when no IHDR
chunk exists. -/
def parseIHDR (b : Buffer) (chunks : List Chunk) : Option ImageInfo :=
  (chunks.find? (fun c => c.type = typeIHDR)).map
    (fun ihdr => parseIHDRData ((b.drop ihdr.dataOffset).take 13))

/-- `state.editMode`: `'pixel'` or `'raw'`. -/
inductive EditMode where
  | pixel
  | raw
  deriving Repr, DecidableEq

/-- The state fields `loadBuffer` derives from the incoming bytes. -/
structure LoadedDecode where
  chunks : List Chunk
  errors : List ParseError
  isValid : Bool
  imageInfo : Option ImageInfo
  pixelData : Option Buffer
  editMode : EditMode
  deriving Repr, DecidableEq

/-- The decode fragment of `loadBuffer`: parse the PNG, derive
`imageInfo` and `pixelData`, and set
`state.editMode = state.pixelData ? 'pixel' : 'raw'`. No further
condition guards `pixelData`: whatever `inflate` returns is installed. -/
def loadBufferDecode (inflate : Buffer → Option Buffer) (b : Buffer) :
    LoadedDecode :=
  let parsed := parsePNG b
  let info := parseIHDR b parsed.chunks
  let px := decompressIDAT inflate b parsed.chunks
  { chunks := parsed.chunks, errors := parsed.errors,
    isValid := parsed.isValid, imageInfo := info, pixelData := px,
    editMode := if px.isSome then EditMode.pixel else EditMode.raw }

/-- A complete container for a 4×4 RGBA image: signature, IHDR with the
13-byte `ihdr4x4RGBA` payload, one IDAT chunk with a single data byte,
IEND (stored CRCs arbitrary — CRC mismatches are non-fatal). -/
def tb6 : Buffer :=
  pngSignature ++ ([0, 0, 0, 13] ++ typeIHDR ++ ihdr4x4RGBA ++ [0, 0, 0, 0]) ++
  ([0, 0, 0, 1] ++ typeIDAT ++ [5] ++ [0, 0, 0, 0]) ++
  ([0, 0, 0, 0] ++ typeIEND ++ [0, 0, 0, 0])

/-- An inflate result of the wrong length: three bytes where the IHDR
geometry demands `scanlineLength * height = 17 * 4 = 68`. -/
def shortInflate : Buffer → Option Buffer := fun _ => some [0, 0, 0]

set_option maxRecDepth 40000 in
/-- **C6.** The claim asks that a successful inflate whose output length
differs from `scanlineLength * height` fail the decode explicitly. No
such validation exists: on the concrete container `tb6` (IHDR geometry
demanding a 68-byte pixel buffer) with an inflate returning 3 bytes,
`loadBuffer` installs the 3-byte buffer as `pixelData` and enters pixel
mode anyway. -/
theorem decode_skips_length_validation :
    ((loadBufferDecode shortInflate tb6).imageInfo.map
      (fun info => info.scanlineLength * info.height)) = some 68 ∧
    (loadBufferDecode shortInflate tb6).pixelData = some [0, 0, 0] ∧
    ((loadBufferDecode shortInflate tb6).pixelData.map List.length) =
      some 3 ∧
    (loadBufferDecode shortInflate tb6).editMode = EditMode.pixel :=
  ⟨by decide, by decide, by decide, by decide⟩

/-! ### Export: `saveFile` (C10) -/

theorem getD_set_ne (b : Buffer) (i j a : Nat) (h : i ≠ j) :
    (b.set i a).getD j 0 = b.getD j 0 := by
  simp [List.getD, List.getElem?_set_ne h]

theorem length_writeBytes (b : Buffer) (off : Nat) (bytes : Buffer) :
    (writeBytes b off bytes).length = b.length := by
  induction bytes generalizing b off with
  | nil => rfl
  | cons x xs ih => simp [writeBytes, ih, List.length_set]

/-- A typed-array write of `bytes` at `off` leaves every byte outside
`[off, off + bytes.length)` unchanged. -/
theorem writeBytes_getD_outside (b : Buffer) (off : Nat) (bytes : Buffer)
    (i : Nat) (h : i < off ∨ off + bytes.length ≤ i) :
    (writeBytes b off bytes).getD i 0 = b.getD i 0 := by
  induction bytes generalizing b off with
  | nil => rfl
  | cons x xs ih =>
      simp only [List.length_cons] at h
      have h' : i < off + 1 ∨ off + 1 + xs.length ≤ i := by omega
      calc (writeBytes b off (x :: xs)).getD i 0
          = (writeBytes (b.set off x) (off + 1) xs).getD i 0 := rfl
        _ = (b.set off x).getD i 0 := ih (b.set off x) (off + 1) h'
        _ = b.getD i 0 := getD_set_ne b off i x (by omega)

/-- `recalculateCRC` touches only the four CRC bytes of its chunk. -/
theorem recalculateCRC_getD_outside (b : Buffer) (c : Chunk) (i : Nat)
    (h : i < c.crcOffset.toNat ∨ c.crcOffset.toNat + 4 ≤ i) :
    (recalculateCRC b c).getD i 0 = b.getD i 0 := by
  unfold recalculateCRC
  split
  · rfl
  · exact writeBytes_getD_outside _ _ _ i (by simpa [be32Bytes] using h)

/-- The minimal slice of the editor state `saveFile` reads. -/
structure SaveState where
  buffer : Option Buffer
  chunks : List Chunk
  deriving Repr, DecidableEq

/-- The CRC-fixup loop of `saveFile`: fold `recalculateCRC` over the
chunk list, skipping the signature pseudo-chunk. -/
def fixAllCRCs (chunks : List Chunk) (b : Buffer) : Buffer :=
  chunks.foldl
    (fun acc c => if c.isSignature then acc else recalculateCRC acc c) b

/-- `saveFile(fixCrc)` with state passing: the first component is the
state after the call, the second the emitted bytes (`none` models the
early return when no buffer is loaded). In fixed mode the code first
copies (`buffer = state.buffer.slice()`) and the fixup loop writes into
the copy only, so the state passes through untouched and the emitted
bytes are the CRC-fixed copy. -/
def saveFile (s : SaveState) (fixCrc : Bool) : SaveState × Option Buffer :=
  match s.buffer with
  | none => (s, none)
  | some b =>
      if fixCrc then (s, some (fixAllCRCs s.chunks b))
      else (s, some b)

theorem length_fixAllCRCs (chunks : List Chunk) (b : Buffer) :
    (fixAllCRCs chunks b).length = b.length := by
  induction chunks generalizing b with
  | nil => rfl
  | cons c cs ih =>
      show (fixAllCRCs cs
        (if c.isSignature then b else recalculateCRC b c)).length = b.length
      rw [ih]
      split
      · rfl
      · unfold recalculateCRC
        split
        · rfl
        · exact length_writeBytes ..

/-- The fixup loop leaves every byte outside all chunks' 4-byte CRC
fields unchanged. -/
theorem fixAllCRCs_getD_outside (chunks : List Chunk) (b : Buffer)
    (i : Nat)
    (h : ∀ c ∈ chunks, c.isSignature = false →
      i < c.crcOffset.toNat ∨ c.crcOffset.toNat + 4 ≤ i) :
    (fixAllCRCs chunks b).getD i 0 = b.getD i 0 := by
  induction chunks generalizing b with
  | nil => rfl
  | cons c cs ih =>
      show (fixAllCRCs cs
        (if c.isSignature then b else recalculateCRC b c)).getD i 0 =
        b.getD i 0
      rw [ih _ (fun c hc => h c (List.mem_cons_of_mem _ hc))]
      split
      · rfl
      · next hsig =>
          exact recalculateCRC_getD_outside b c i
            (h c (List.mem_cons_self _ _) (by simpa using hsig))

/-- **C10.** Exporting in fixed mode operates on a copy: after
`saveFile(true)` the state (in particular `state.buffer`) is identical
to its value before the call; the emitted bytes are the CRC-fixed copy,
which has the same length as the working buffer and agrees with it at
every byte position outside the non-signature chunks' 4-byte CRC
fields — only the emitted copy carries the corrected CRC bytes. -/
theorem saveFile_fixed_mode_spec (s : SaveState) (b : Buffer)
    (hb : s.buffer = some b) :
    (saveFile s true).1 = s ∧
    (saveFile s true).1.buffer = some b ∧
    (saveFile s true).2 = some (fixAllCRCs s.chunks b) ∧
    (fixAllCRCs s.chunks b).length = b.length ∧
    (∀ i, (∀ c ∈ s.chunks, c.isSignature = false →
        i < c.crcOffset.toNat ∨ c.crcOffset.toNat + 4 ≤ i) →
      (fixAllCRCs s.chunks b).getD i 0 = b.getD i 0) := by
  refine ⟨?_, ?_, ?_, length_fixAllCRCs .., fun i h =>
    fixAllCRCs_getD_outside s.chunks b i h⟩ <;>
    simp [saveFile, hb]

def saveDemoState : SaveState :=
  { buffer := some tb6, chunks := (parsePNG tb6).chunks }

set_option maxRecDepth 40000 in
/-- Witness for C10: the concrete loaded container `tb6`. -/
theorem saveFile_fixed_mode_spec_witness :
    saveDemoState.buffer = some tb6 ∧
    ((saveFile saveDemoState true).1 = saveDemoState ∧
     (saveFile saveDemoState true).1.buffer = some tb6 ∧
     (saveFile saveDemoState true).2 =
       some (fixAllCRCs saveDemoState.chunks tb6) ∧
     (fixAllCRCs saveDemoState.chunks tb6).length = tb6.length ∧
     (∀ i, (∀ c ∈ saveDemoState.chunks, c.isSignature = false →
         i < c.crcOffset.toNat ∨ c.crcOffset.toNat + 4 ≤ i) →
       (fixAllCRCs saveDemoState.chunks tb6).getD i 0 = tb6.getD i 0)) :=
  ⟨by decide, saveFile_fixed_mode_spec saveDemoState tb6 (by decide)⟩

/-! ### The editing session: history, undo and redo (C3) -/

/-- One history entry: byte edits (`edit`/`fill`/`randomize` all record
`{ offset, mode, oldData, newData }`) or layer operations (all
`layer-*` types record `{ oldLayers, newLayers }`; undo/redo treat them
uniformly). -/
inductive Entry where
  | edit (offset : Nat) (mode : EditMode) (oldData newData : Buffer)
  | layerOp (oldLayers newLayers : List Layer)
  deriving Repr, DecidableEq

/-- The editor state touched by editing, history and export.
`pxAliasesOrig` tracks the reference sharing `renderLayerStack` can
create: it is `true` when `state.pixelData` and
`state.layerStack.originalPixelData` are the same JS array, so that an
in-place byte write into the pixel buffer mutates both.  `loadBuffer`
copies with `.slice()`, so a fresh load never aliases; a render that
applies no effect installs the original array itself (see
`renderStackSession`). -/
structure Session where
  buffer : Buffer
  chunks : List Chunk
  errors : List ParseError
  isValid : Bool
  pixelData : Option Buffer
  imageInfo : Option ImageInfo
  editMode : EditMode
  stack : LayerStack
  pxAliasesOrig : Bool
  history : List Entry
  historyIndex : Int
  deriving Repr, DecidableEq

/-- `pushHistory(entry)` on the `(history, historyIndex)` pair: truncate
the redo tail, append, and cap the list at 100 entries (dropping the
oldest and shifting the index). -/
def pushedHistory (H : List Entry) (hi : Int) (e : Entry) :
    List Entry × Int :=
  let h := H.take (hi + 1).toNat ++ [e]
  if h.length > 100 then (h.drop 1, (h.length : Int) - 2)
  else (h, (h.length : Int) - 1)

def pushHistory (s : Session) (e : Entry) : Session :=
  let p := pushedHistory s.history s.historyIndex e
  { s with history := p.1, historyIndex := p.2 }

/-- `getActiveBuffer()`: the pixel buffer in pixel mode when pixel data
exists, the raw file buffer otherwise. -/
def getActiveBuffer (s : Session) : Buffer :=
  match s.editMode, s.pixelData with
  | EditMode.pixel, some px => px
  | _, _ => s.buffer

/-- Store a written pixel buffer back into `state.pixelData`.  The JS
write is in place, so when the last render left `state.pixelData` and
`state.layerStack.originalPixelData` the same array, it mutates both;
the model then updates both fields. -/
def storePixel (s : Session) (nb : Buffer) : Session :=
  match s.pxAliasesOrig with
  | true =>
      { s with pixelData := some nb,
               stack := { s.stack with originalPixelData := some nb } }
  | false => { s with pixelData := some nb }

/-- Write back through the same alias `getActiveBuffer` selected. -/
def setActiveBuffer (s : Session) (nb : Buffer) : Session :=
  match s.editMode, s.pixelData with
  | EditMode.pixel, some _ => storePixel s nb
  | _, _ => { s with buffer := nb }

/-- `recompressAndRebuildBuffer()`: deflate the pixel buffer (`deflate`
abstracts the pako call), splice it over the IDAT run found in
`state.chunks`, and re-parse; early return when pixel data or image info
is missing or no IDAT chunk exists. -/
def recompressAndRebuild (deflate : Buffer → Buffer) (s : Session) :
    Session :=
  match s.pixelData, s.imageInfo with
  | some px, some _ =>
      match rebuildWithIDAT s.buffer s.chunks (deflate px) with
      | none => s
      | some nb =>
          let parsed := parsePNG nb
          { s with
            buffer := nb, chunks := parsed.chunks,
            errors := parsed.errors, isValid := parsed.isValid }
  | _, _ => s

/-- `afterEdit()`: in pixel mode recompress and rebuild; in raw mode fix
every chunk CRC in place in `state.buffer` and re-parse. -/
def afterEdit (deflate : Buffer → Buffer) (s : Session) : Session :=
  if s.editMode = EditMode.pixel ∧ s.pixelData.isSome then
    recompressAndRebuild deflate s
  else
    let b := fixAllCRCs s.chunks s.buffer
    let parsed := parsePNG b
    { s with
      buffer := b, chunks := parsed.chunks,
      errors := parsed.errors, isValid := parsed.isValid }

/-- `editByte(offset, newValue)`: bounds check, no-op on equal value,
push a history entry recording the old and new byte, store the (masked)
byte through the active buffer, then `afterEdit()`. -/
def editByte (deflate : Buffer → Buffer) (s : Session)
    (offset newValue : Nat) : Session :=
  let buffer := getActiveBuffer s
  if offset ≥ buffer.length then s
  else
    let oldValue := buffer.getD offset 0
    if oldValue = newValue then s
    else
      let s1 := pushHistory s
        (Entry.edit offset s.editMode [oldValue] [newValue % 256])
      let s2 := setActiveBuffer s1 (buffer.set offset (newValue % 256))
      afterEdit deflate s2

def invalidateSession (s : Session) (index : Nat) : Session :=
  { s with stack := invalidateFromLayer s.stack index }

/-- The render loop replaces its working reference iff some layer is
both enabled and registered (a cache hit and an effect application both
reassign `data`). -/
def anyActive (reg : EffectRegistry) (L : List Layer) : Bool :=
  L.any (fun l => l.enabled && (reg l.effectId).isSome)

/-- `renderLayerStack()` at the session level: run the layer loop, store
the result as `state.pixelData`, recompress and rebuild the file buffer,
and re-parse it.  The loop starts with
`let data = state.layerStack.originalPixelData` — the array itself, no
copy — and only reassigns `data` at enabled registered layers, so when
none applies, `state.pixelData = data` installs the original array and
the two fields alias; an applied effect returns a fresh buffer, so an
active pass clears the alias. -/
def renderStackSession (reg : EffectRegistry) (deflate : Buffer → Buffer)
    (s : Session) : Session :=
  match s.stack.originalPixelData, s.imageInfo with
  | some _, some info =>
      let r := renderLayerStack reg info s.stack
      let s1 := { s with
        stack := r.1, pixelData := r.2,
        pxAliasesOrig := !(anyActive reg s.stack.layers) }
      let s2 := recompressAndRebuild deflate s1
      let parsed := parsePNG s2.buffer
      { s2 with
        chunks := parsed.chunks, errors := parsed.errors,
        isValid := parsed.isValid }
  | _, _ => s

def invalidateAndRender (reg : EffectRegistry)
    (deflate : Buffer → Buffer) (s : Session) (index : Nat) : Session :=
  renderStackSession reg deflate (invalidateSession s index)

/-- The shared tail of every layer operation: install the new layer
list, push a `layer-*` history entry, invalidate from `index` and
re-render. -/
def layerOpTail (reg : EffectRegistry) (deflate : Buffer → Buffer)
    (s : Session) (newLayers : List Layer) (index : Nat) : Session :=
  let oldLayers := s.stack.layers
  let s1 := { s with stack := { s.stack with layers := newLayers } }
  let s2 := pushHistory s1 (Entry.layerOp oldLayers newLayers)
  invalidateAndRender reg deflate s2 index

/-- `addLayer(effectId)` with the fresh layer (id, default params, seed)
passed in explicitly. -/
def addLayer (reg : EffectRegistry) (deflate : Buffer → Buffer)
    (s : Session) (l : Layer) : Session :=
  match s.stack.originalPixelData with
  | none => s
  | some _ =>
      let newLayers := s.stack.layers ++ [l]
      layerOpTail reg deflate s newLayers (newLayers.length - 1)

def removeLayer (reg : EffectRegistry) (deflate : Buffer → Buffer)
    (s : Session) (layerId : Nat) : Session :=
  match s.stack.layers.findIdx? (fun l => l.id == layerId) with
  | none => s
  | some index =>
      layerOpTail reg deflate s (s.stack.layers.eraseIdx index) index

/-- JS object assignment into `layer.params`: replace in place or
append. -/
def paramSet : Params → String → Int → Params
  | [], k, v => [(k, v)]
  | (k', v') :: rest, k, v =>
      if k' = k then (k, v) :: rest else (k', v') :: paramSet rest k v

def updateLayerParam (reg : EffectRegistry) (deflate : Buffer → Buffer)
    (s : Session) (layerId : Nat) (pid : String) (v : Int) : Session :=
  match s.stack.layers.findIdx? (fun l => l.id == layerId) with
  | none => s
  | some index =>
      layerOpTail reg deflate s
        (List.modify (fun l => { l with params := paramSet l.params pid v })
          index s.stack.layers) index

def toggleLayer (reg : EffectRegistry) (deflate : Buffer → Buffer)
    (s : Session) (layerId : Nat) : Session :=
  match s.stack.layers.findIdx? (fun l => l.id == layerId) with
  | none => s
  | some index =>
      layerOpTail reg deflate s
        (List.modify (fun l => { l with enabled := !l.enabled })
          index s.stack.layers) index

/-- `reorderLayers(fromIndex, toIndex)`; drag-and-drop only produces
in-range indices, so the out-of-range splice is modelled as a no-op. -/
def reorderLayers (reg : EffectRegistry) (deflate : Buffer → Buffer)
    (s : Session) (fromIndex toIndex : Nat) : Session :=
  if fromIndex = toIndex then s
  else
    match s.stack.layers[fromIndex]? with
    | none => s
    | some l =>
        layerOpTail reg deflate s
          ((s.stack.layers.eraseIdx fromIndex).insertIdx toIndex l)
          (min fromIndex toIndex)

/-- `history[i]` for the signed index. -/
def entryAt (H : List Entry) (i : Int) : Option Entry :=
  if i < 0 then none else H[i.toNat]?

/-- `undo()`: at the entry under `historyIndex`, restore `oldLayers`
(then invalidate from 0 and re-render) for layer entries, or switch to
the entry's mode, write `oldData` back through the entry's buffer and
run `afterEdit()` for byte entries; a missing pixel buffer would throw
in JS, modelled as leaving it absent. -/
def undo (reg : EffectRegistry) (deflate : Buffer → Buffer)
    (s : Session) : Session :=
  if s.historyIndex < 0 then s
  else
    match s.history[s.historyIndex.toNat]? with
    | none => s
    | some (Entry.layerOp oldLayers _) =>
        let s1 := { s with
          stack := { s.stack with layers := oldLayers },
          historyIndex := s.historyIndex - 1 }
        invalidateAndRender reg deflate s1 0
    | some (Entry.edit off mode oldD _) =>
        let s1 := if mode ≠ s.editMode then { s with editMode := mode }
          else s
        let s2 :=
          match mode with
          | EditMode.pixel =>
              match s1.pixelData with
              | some px => storePixel s1 (writeBytes px off oldD)
              | none => s1
          | EditMode.raw => { s1 with buffer := writeBytes s1.buffer off oldD }
        let s3 := { s2 with historyIndex := s2.historyIndex - 1 }
        afterEdit deflate s3

/-- `redo()`: advance `historyIndex` and replay the entry with
`newLayers` / `newData` symmetrically to `undo()`. -/
def redo (reg : EffectRegistry) (deflate : Buffer → Buffer)
    (s : Session) : Session :=
  if s.historyIndex ≥ (s.history.length : Int) - 1 then s
  else
    let hi := s.historyIndex + 1
    match s.history[hi.toNat]? with
    | none => s
    | some (Entry.layerOp _ newLayers) =>
        let s1 := { s with
          stack := { s.stack with layers := newLayers },
          historyIndex := hi }
        invalidateAndRender reg deflate s1 0
    | some (Entry.edit off mode _ newD) =>
        let s1 := { s with historyIndex := hi }
        let s2 := if mode ≠ s1.editMode then { s1 with editMode := mode }
          else s1
        let s3 :=
          match mode with
          | EditMode.pixel =>
              match s2.pixelData with
              | some px => storePixel s2 (writeBytes px off newD)
              | none => s2
          | EditMode.raw => { s2 with buffer := writeBytes s2.buffer off newD }
        afterEdit deflate s3

/-- The session `loadBuffer` produces (UI fields aside):
`state.layerStack.originalPixelData = state.pixelData.slice()` is a
copy, so the fresh session does not alias. -/
def loadSession (inflate : Buffer → Option Buffer) (b : Buffer) :
    Session :=
  let parsed := parsePNG b
  let info := parseIHDR b parsed.chunks
  let px := decompressIDAT inflate b parsed.chunks
  { buffer := b, chunks := parsed.chunks, errors := parsed.errors,
    isValid := parsed.isValid, pixelData := px, imageInfo := info,
    editMode := if px.isSome then EditMode.pixel else EditMode.raw,
    stack := { layers := [], originalPixelData := px,
               cachedResults := [], dirtyFromIndex := -1 },
    pxAliasesOrig := false, history := [], historyIndex := -1 }

def undoN (reg : EffectRegistry) (deflate : Buffer → Buffer) :
    Nat → Session → Session
  | 0, s => s
  | n + 1, s => undoN reg deflate n (undo reg deflate s)

def redoN (reg : EffectRegistry) (deflate : Buffer → Buffer) :
    Nat → Session → Session
  | 0, s => s
  | n + 1, s => redo reg deflate (redoN reg deflate n s)

/-- A container with no IDAT chunk: one length-1 IHDR-typed chunk and an
IEND chunk. Loading it yields no pixel data, so the editor starts in raw
mode. -/
def rawDemoBuf : Buffer :=
  pngSignature ++ ([0, 0, 0, 1] ++ typeIHDR ++ [9] ++ [0, 0, 0, 0]) ++
  ([0, 0, 0, 0] ++ typeIEND ++ [0, 0, 0, 0])

def idDeflate : Buffer → Buffer := fun x => x

def noInflate : Buffer → Option Buffer := fun _ => none

def rawS0 : Session := loadSession noInflate rawDemoBuf

/-- One raw byte edit at offset 11 (the low byte of the first chunk's
length field), then one undo and one redo. -/
def rawSE : Session := editByte idDeflate rawS0 11 5

def rawSU : Session := undo demoRegistry idDeflate rawSE

def rawSR : Session := redo demoRegistry idDeflate rawSU

set_option maxRecDepth 40000 in
/-- **C3, counterexample.** One raw-mode byte edit to a chunk-length
byte, then `undo()` and `redo()`: the history index returns to its
post-edit value, but the working buffer and the parsed chunk list do
not. `afterEdit`'s CRC fixups run against the stale chunk layout and
overwrite bytes (offsets 21–24, the next chunk's length field) that no
history entry records, so the round trip is not a no-op. -/
theorem undo_redo_not_roundtrip :
    rawSR.historyIndex = rawSE.historyIndex ∧
    rawSR.editMode = rawSE.editMode ∧
    rawSR.buffer ≠ rawSE.buffer ∧
    rawSR.chunks ≠ rawSE.chunks :=
  ⟨by decide, by decide, by decide, by decide⟩

/-- A demo layer for the pixel-mode counterexample. -/
def alLayer : Layer :=
  { id := 1, effectId := "demo", enabled := true, params := [],
    seed := 0 }

def alS0 : Session := loadSession shortInflate tb6

/-- One pixel byte edit at offset 0, then adding an enabled demo
layer. -/
def alSE : Session := editByte idDeflate alS0 0 7

def alSL : Session := addLayer demoRegistry idDeflate alSE alLayer

def alSU : Session := undoN demoRegistry idDeflate 2 alSL

def alSR : Session := redoN demoRegistry idDeflate 2 alSU

set_option maxRecDepth 40000 in
/-- **C3, pixel-mode counterexample.** A pixel byte edit followed by a
layer operation breaks the round trip too.  Undoing the layer entry
re-renders an empty stack, and `renderLayerStack` installs
`state.layerStack.originalPixelData` itself — the same array, not a
copy — as `state.pixelData`; redoing the byte edit writes through that
alias and corrupts the pristine original, so after two undos and two
redos the pixel buffer, the pristine original and the rebuilt file
buffer all differ from their post-trace values. -/
theorem undo_redo_layer_alias_not_roundtrip :
    alSR.historyIndex = alSL.historyIndex ∧
    alSR.stack.layers = alSL.stack.layers ∧
    alSL.stack.originalPixelData = some [0, 0, 0] ∧
    alSR.stack.originalPixelData = some [7, 0, 0] ∧
    alSL.pixelData = some [0, 0, 0, 7] ∧
    alSR.pixelData = some [7, 0, 0, 7] ∧
    alSR.buffer ≠ alSL.buffer :=
  ⟨by decide, by decide, by decide, by decide, by decide, by decide,
    by decide⟩

/-! ### Stability of the IDAT splice under recompression

A loaded container's chunk walk decomposes as non-IDAT chunks, a
contiguous IDAT run starting at byte `W`, and non-IDAT chunks from byte
`A` on. Rebuilding splices `[W, A)`; re-parsing and rebuilding again
splices the same window, so every recompression lands in the same
canonical form `rebuiltBuffer b W A ·`. -/

def FrameOk (b : Buffer) (W A : Nat) : Prop :=
  ∃ pre c₀ mid cL mid2 post es,
    parseChunksLoop b 8 = (pre ++ (c₀ :: mid) ++ post, es) ∧
    c₀ :: mid = mid2 ++ [cL] ∧
    (∀ c ∈ c₀ :: mid, c.type = typeIDAT) ∧
    (∀ c ∈ pre, c.type ≠ typeIDAT) ∧
    (∀ c ∈ post, c.type ≠ typeIDAT) ∧
    W = c₀.offset ∧ A = cL.offset + cL.length

theorem parsePNG_chunks (b : Buffer) :
    (parsePNG b).chunks =
      sigChunk (b.take 8 = pngSignature) :: (parseChunksLoop b 8).1 := rfl

theorem rebuildWithIDAT_first (b : Buffer) (W A : Nat)
    (hF : FrameOk b W A) :
    W ≤ b.length ∧
    ∀ comp : Buffer, comp.length < 2 ^ 32 →
      rebuildWithIDAT b (parsePNG b).chunks comp =
        some (rebuiltBuffer b W A comp) := by
  obtain ⟨pre, c₀, mid, cL, mid2, post, es, hparse, hsplit, hidat, hpre,
    hpost, hW, hA⟩ := hF
  have hc₀ : c₀.type = typeIDAT := hidat c₀ (List.mem_cons_self _ _)
  have hcLmem : cL ∈ c₀ :: mid := by
    rw [hsplit]
    exact List.mem_append.mpr (Or.inr (List.mem_singleton.mpr rfl))
  have hcL : cL.type = typeIDAT := hidat cL hcLmem
  obtain ⟨_, _, hW8, hWext, hAle⟩ := reparse_rebuilt b [] pre (c₀ :: mid)
    post es c₀ cL mid mid2 rfl hsplit hparse hc₀ hcL (by decide)
  refine ⟨by omega, ?_⟩
  intro comp hc
  rw [parsePNG_chunks]
  have h1 : (parseChunksLoop b 8).1 = pre ++ (c₀ :: mid) ++ post := by
    rw [hparse]
  rw [h1, hW, hA]
  exact rebuildWithIDAT_eq b comp _ pre (c₀ :: mid) post c₀ cL mid mid2
    rfl hsplit hc₀ hcL hpre hpost

theorem FrameOk_rebuilt (b : Buffer) (W A : Nat) (hF : FrameOk b W A)
    (comp : Buffer) (hc : comp.length < 2 ^ 32) :
    FrameOk (rebuiltBuffer b W A comp) W (W + 12 + comp.length) := by
  obtain ⟨pre, c₀, mid, cL, mid2, post, es, hparse, hsplit, hidat, hpre,
    hpost, hW, hA⟩ := hF
  have hc₀ : c₀.type = typeIDAT := hidat c₀ (List.mem_cons_self _ _)
  have hcL : cL.type = typeIDAT := hidat cL (by
    rw [hsplit]
    exact List.mem_append.mpr (Or.inr (List.mem_singleton.mpr rfl)))
  obtain ⟨hrp, _, _, _, _⟩ := reparse_rebuilt b comp pre (c₀ :: mid) post
    es c₀ cL mid mid2 rfl hsplit hparse hc₀ hcL hc
  rw [← hW, ← hA] at hrp
  refine ⟨pre, newIdatChunk W comp, [], newIdatChunk W comp, [],
    post.map (shiftChunk A (W + 12 + comp.length)),
    errsOf pre ++ (parseChunksLoop b A).2.map
      (shiftErr A (W + 12 + comp.length)), ?_, rfl, ?_, hpre,
    ?_, rfl, ?_⟩
  · rw [hrp]
    simp
  · intro c hcmem
    rcases List.mem_cons.mp hcmem with h1 | h1
    · rw [h1]; rfl
    · simp at h1
  · intro c hcmem
    rcases List.mem_map.mp hcmem with ⟨c', hc', hcc⟩
    subst hcc
    simpa [shiftChunk] using hpost c' hc'
  · show W + 12 + comp.length =
      (newIdatChunk W comp).offset + (newIdatChunk W comp).length
    simp only [newIdatChunk]
    omega

theorem rebuild_stable (b : Buffer) (W A : Nat) (hF : FrameOk b W A)
    (comp : Buffer) (hc : comp.length < 2 ^ 32) (comp' : Buffer)
    (hc' : comp'.length < 2 ^ 32) :
    rebuildWithIDAT (rebuiltBuffer b W A comp)
        (parsePNG (rebuiltBuffer b W A comp)).chunks comp' =
      some (rebuiltBuffer b W A comp') := by
  have hF' := FrameOk_rebuilt b W A hF comp hc
  obtain ⟨_, hrw⟩ := rebuildWithIDAT_first _ _ _ hF'
  rw [hrw comp' hc']
  have hWle : W ≤ b.length := (rebuildWithIDAT_first b W A hF).1
  congr 1
  show (rebuiltBuffer b W A comp).take W ++ be32Bytes comp'.length ++
      typeIDAT ++ comp' ++
      be32Bytes (crc32 (typeIDAT ++ comp') 0 (4 + comp'.length)) ++
      (rebuiltBuffer b W A comp).drop (W + 12 + comp.length) =
    rebuiltBuffer b W A comp'
  rw [take_rebuiltBuffer b W A comp hWle,
    drop_rebuiltBuffer_after b W A comp hWle]
  rfl

/-! ### Canonical pixel-mode session states -/

def mkSession (bf : Buffer) (ck : List Chunk) (er : List ParseError)
    (iv : Bool) (pxq : Option Buffer) (ii : Option ImageInfo)
    (em : EditMode) (L : List Layer) (od : Option Buffer) (C : CacheMap)
    (d0 : Int) (al : Bool) (H : List Entry) (hi : Int) : Session :=
  { buffer := bf, chunks := ck, errors := er, isValid := iv,
    pixelData := pxq, imageInfo := ii, editMode := em,
    stack := { layers := L, originalPixelData := od, cachedResults := C,
               dirtyFromIndex := d0 },
    pxAliasesOrig := al, history := H, historyIndex := hi }

/-- The session shape every pixel-buffer byte edit produces: the buffer
is the canonical splice of the deflated pixel buffer, the parse fields
are derived from it, and the pixel buffer does not alias the pristine
original (no render has run since the load, which copies). -/
def canonSession (b : Buffer) (W A : Nat) (deflate : Buffer → Buffer)
    (info : ImageInfo) (orig : Buffer) (px : Buffer) (L : List Layer)
    (C : CacheMap) (H : List Entry) (hi : Int) : Session :=
  mkSession (rebuiltBuffer b W A (deflate px))
    (parsePNG (rebuiltBuffer b W A (deflate px))).chunks
    (parsePNG (rebuiltBuffer b W A (deflate px))).errors
    (parsePNG (rebuiltBuffer b W A (deflate px))).isValid
    (some px) (some info) EditMode.pixel L (some orig) C (-1) false H hi

theorem recompressAndRebuild_eq (deflate : Buffer → Buffer) (b : Buffer)
    (W A : Nat) (info : ImageInfo) (bf : Buffer) (ck : List Chunk)
    (er : List ParseError) (iv : Bool) (px : Buffer) (em : EditMode)
    (L : List Layer) (od : Option Buffer) (C : CacheMap) (d0 : Int)
    (al : Bool) (H : List Entry) (hi : Int)
    (hRC : ∀ comp : Buffer, comp.length < 2 ^ 32 →
      rebuildWithIDAT bf ck comp = some (rebuiltBuffer b W A comp))
    (hdef : ∀ x : Buffer, (deflate x).length < 2 ^ 32) :
    recompressAndRebuild deflate
      (mkSession bf ck er iv (some px) (some info) em L od C d0 al H hi) =
    mkSession (rebuiltBuffer b W A (deflate px))
      (parsePNG (rebuiltBuffer b W A (deflate px))).chunks
      (parsePNG (rebuiltBuffer b W A (deflate px))).errors
      (parsePNG (rebuiltBuffer b W A (deflate px))).isValid
      (some px) (some info) em L od C d0 al H hi := by
  unfold recompressAndRebuild mkSession
  simp only
  rw [hRC _ (hdef _)]

/-- A pixel-mode byte edit pushes its entry and lands in canonical form
with the byte stored (masked) in the pixel buffer; on an unaliased
session the write touches only `state.pixelData`, and the render cache
is untouched. -/
theorem editByte_eq (deflate : Buffer → Buffer) (b : Buffer) (W A : Nat)
    (info : ImageInfo) (orig : Buffer) (bf : Buffer) (ck : List Chunk)
    (er : List ParseError) (iv : Bool) (L : List Layer) (C : CacheMap)
    (H : List Entry) (hi : Int) (px : Buffer) (offset v : Nat)
    (hRC : ∀ comp : Buffer, comp.length < 2 ^ 32 →
      rebuildWithIDAT bf ck comp = some (rebuiltBuffer b W A comp))
    (hdef : ∀ x : Buffer, (deflate x).length < 2 ^ 32)
    (hoff : offset < px.length) (hnev : px.getD offset 0 ≠ v) :
    editByte deflate
      (mkSession bf ck er iv (some px) (some info) EditMode.pixel L
        (some orig) C (-1) false H hi) offset v =
    canonSession b W A deflate info orig (px.set offset (v % 256)) L C
      (pushedHistory H hi
        (Entry.edit offset EditMode.pixel [px.getD offset 0] [v % 256])).1
      (pushedHistory H hi
        (Entry.edit offset EditMode.pixel [px.getD offset 0] [v % 256])).2 := by
  unfold editByte
  have hga : getActiveBuffer
      (mkSession bf ck er iv (some px) (some info) EditMode.pixel L
        (some orig) C (-1) false H hi) = px := rfl
  rw [hga]
  rw [if_neg (by omega)]
  simp only
  rw [if_neg hnev]
  show afterEdit deflate
    (mkSession bf ck er iv (some (px.set offset (v % 256))) (some info)
      EditMode.pixel L (some orig) C (-1) false
      (pushedHistory H hi
        (Entry.edit offset EditMode.pixel [px.getD offset 0]
          [v % 256])).1
      (pushedHistory H hi
        (Entry.edit offset EditMode.pixel [px.getD offset 0]
          [v % 256])).2) = _
  unfold afterEdit
  rw [if_pos ⟨rfl, rfl⟩]
  exact recompressAndRebuild_eq deflate b W A info bf ck er iv _ _ L _ C
    _ _ _ _ hRC hdef

theorem undo_bottom (reg : EffectRegistry) (deflate : Buffer → Buffer)
    (s : Session) (h : s.historyIndex < 0) : undo reg deflate s = s := by
  unfold undo
  rw [if_pos h]

theorem redo_top (reg : EffectRegistry) (deflate : Buffer → Buffer)
    (s : Session) (h : s.historyIndex ≥ (s.history.length : Int) - 1) :
    redo reg deflate s = s := by
  unfold redo
  rw [if_pos h]

/-- Undoing a pixel-mode byte entry on an unaliased session writes the
recorded old bytes back into the pixel buffer, decrements the index and
recompresses. -/
theorem undo_edit_eq (reg : EffectRegistry) (deflate : Buffer → Buffer)
    (b : Buffer) (W A : Nat) (info : ImageInfo) (orig : Buffer)
    (bf : Buffer) (ck : List Chunk) (er : List ParseError) (iv : Bool)
    (L : List Layer) (C : CacheMap) (H : List Entry) (hi : Int)
    (px : Buffer) (off : Nat) (oldD newD : Buffer)
    (hRC : ∀ comp : Buffer, comp.length < 2 ^ 32 →
      rebuildWithIDAT bf ck comp = some (rebuiltBuffer b W A comp))
    (hdef : ∀ x : Buffer, (deflate x).length < 2 ^ 32)
    (hhi : 0 ≤ hi)
    (hent : H[hi.toNat]? = some (Entry.edit off EditMode.pixel oldD newD)) :
    undo reg deflate
      (mkSession bf ck er iv (some px) (some info) EditMode.pixel L
        (some orig) C (-1) false H hi) =
    canonSession b W A deflate info orig (writeBytes px off oldD) L C H
      (hi - 1) := by
  unfold undo
  rw [if_neg (by show ¬ hi < 0; omega)]
  show (match H[hi.toNat]? with
    | none => _
    | some (Entry.layerOp _ _) => _
    | some (Entry.edit _ _ _ _) => _) = _
  rw [hent]
  simp only
  rw [if_neg (by show ¬ (EditMode.pixel ≠ EditMode.pixel); simp)]
  show afterEdit deflate
    (mkSession bf ck er iv (some (writeBytes px off oldD)) (some info)
      EditMode.pixel L (some orig) C (-1) false H (hi - 1)) = _
  unfold afterEdit
  rw [if_pos ⟨rfl, rfl⟩]
  exact recompressAndRebuild_eq deflate b W A info bf ck er iv _ _ L _ C
    _ _ _ _ hRC hdef

/-- Redoing a pixel-mode byte entry on an unaliased session writes the
recorded new bytes, advances the index and recompresses. -/
theorem redo_edit_eq (reg : EffectRegistry) (deflate : Buffer → Buffer)
    (b : Buffer) (W A : Nat) (info : ImageInfo) (orig : Buffer)
    (bf : Buffer) (ck : List Chunk) (er : List ParseError) (iv : Bool)
    (L : List Layer) (C : CacheMap) (H : List Entry) (hi : Int)
    (px : Buffer) (off : Nat) (oldD newD : Buffer)
    (hRC : ∀ comp : Buffer, comp.length < 2 ^ 32 →
      rebuildWithIDAT bf ck comp = some (rebuiltBuffer b W A comp))
    (hdef : ∀ x : Buffer, (deflate x).length < 2 ^ 32)
    (hlt : hi < (H.length : Int) - 1)
    (hent : H[(hi + 1).toNat]? =
      some (Entry.edit off EditMode.pixel oldD newD)) :
    redo reg deflate
      (mkSession bf ck er iv (some px) (some info) EditMode.pixel L
        (some orig) C (-1) false H hi) =
    canonSession b W A deflate info orig (writeBytes px off newD) L C H
      (hi + 1) := by
  unfold redo
  rw [if_neg (by show ¬ hi ≥ (H.length : Int) - 1; omega)]
  show (match H[(hi + 1).toNat]? with
    | none => _
    | some (Entry.layerOp _ _) => _
    | some (Entry.edit _ _ _ _) => _) = _
  rw [hent]
  simp only
  rw [if_neg (by show ¬ (EditMode.pixel ≠ EditMode.pixel); simp)]
  show afterEdit deflate
    (mkSession bf ck er iv (some (writeBytes px off newD)) (some info)
      EditMode.pixel L (some orig) C (-1) false H (hi + 1)) = _
  unfold afterEdit
  rw [if_pos ⟨rfl, rfl⟩]
  exact recompressAndRebuild_eq deflate b W A info bf ck er iv _ _ L _ C
    _ _ _ _ hRC hdef

/-! ### Byte-range writes: inversion helpers -/

theorem writeBytes_single (b : Buffer) (off : Nat) (x : Nat) :
    writeBytes b off [x] = b.set off x := rfl

theorem set_getD_self (l : Buffer) (off : Nat) (h : off < l.length) :
    l.set off (l.getD off 0) = l := by
  apply List.ext_getElem?
  intro i
  by_cases hio : i = off
  · subst hio
    rw [List.getElem?_set_self (by omega), List.getD_eq_getElem l 0 h,
      List.getElem?_eq_getElem h]
  · exact List.getElem?_set_ne (fun hc => hio hc.symm)

theorem writeBytes_set_lt (b : Buffer) (off i : Nat) (d : Buffer)
    (y : Nat) (h : i < off) :
    (writeBytes b off d).set i y = writeBytes (b.set i y) off d := by
  induction d generalizing b off with
  | nil => rfl
  | cons x xs ih =>
      show (writeBytes (b.set off x) (off + 1) xs).set i y =
        writeBytes ((b.set i y).set off x) (off + 1) xs
      rw [ih (b.set off x) (off + 1) (by omega),
        List.set_comm x y b (by omega)]

/-- Writing `d₂` over a fresh write of `d₁` of no greater extent is the
same as writing `d₂` directly. -/
theorem writeBytes_overwrite (d₁ d₂ : Buffer) (b : Buffer) (off : Nat)
    (h : d₁.length ≤ d₂.length) :
    writeBytes (writeBytes b off d₁) off d₂ = writeBytes b off d₂ := by
  induction d₁ generalizing b off d₂ with
  | nil => rfl
  | cons x xs ih =>
      match d₂ with
      | [] => simp at h
      | y :: ys =>
          show writeBytes ((writeBytes (b.set off x) (off + 1) xs).set off y)
              (off + 1) ys = writeBytes (b.set off y) (off + 1) ys
          rw [writeBytes_set_lt _ _ _ _ _ (by omega),
            List.set_set x y b off]
          exact ih ys (b.set off y) (off + 1) (by simpa using h)

/-- Writing bytes that are already there changes nothing. -/
theorem writeBytes_slice_id (d : Buffer) (px : Buffer) (off : Nat)
    (hlen : off + d.length ≤ px.length)
    (hslice : (px.drop off).take d.length = d) :
    writeBytes px off d = px := by
  induction d generalizing px off with
  | nil => rfl
  | cons y ys ih =>
      have hofflt : off < px.length := by
        simp only [List.length_cons] at hlen
        omega
      rw [List.drop_eq_getElem_cons hofflt] at hslice
      simp only [List.length_cons, List.take_succ_cons, List.cons.injEq]
        at hslice
      show writeBytes (px.set off y) (off + 1) ys = px
      rw [← hslice.1, ← List.getD_eq_getElem px 0 hofflt,
        set_getD_self px off hofflt]
      exact ih px (off + 1) (by simp only [List.length_cons] at hlen; omega)
        hslice.2

/-! ### The undo chain invariant

`EditChain n px H hi` records, walking the history downward from index
`hi`, exactly what `undo` and `redo` need for the round trip over byte
edits: every entry is a pixel-mode edit whose recorded new bytes match
the in-range bytes of the tracked pixel buffer and whose old bytes have
the same extent. -/
def EditChain : Nat → Buffer → List Entry → Int → Prop
  | 0, _, _, _ => True
  | n + 1, px, H, hi =>
      hi < 0 ∨
      ∃ off oldD newD,
        entryAt H hi = some (Entry.edit off EditMode.pixel oldD newD) ∧
        oldD.length = newD.length ∧
        off + newD.length ≤ px.length ∧
        (px.drop off).take newD.length = newD ∧
        EditChain n (writeBytes px off oldD) H (hi - 1)

theorem entryAt_nonneg (H : List Entry) (hi : Int) (h : 0 ≤ hi) :
    entryAt H hi = H[hi.toNat]? := by
  unfold entryAt
  rw [if_neg (by omega)]

/-- The chain only reads entries at or below its index, so it transfers
across any history whose entries agree downward from the new index. -/
theorem editChain_transfer (m : Nat) :
    ∀ (n : Nat) (px : Buffer) (H H₂ : List Entry) (hi hi₂ : Int),
      m ≤ n → hi₂ ≤ hi →
      (∀ k : Nat, 0 ≤ hi₂ - k → entryAt H₂ (hi₂ - k) = entryAt H (hi - k)) →
      EditChain n px H hi → EditChain m px H₂ hi₂ := by
  induction m with
  | zero => intro _ _ _ _ _ _ _ _ _ _; trivial
  | succ m ih =>
      intro n px H H₂ hi hi₂ hmn hle hag h
      by_cases hneg : hi₂ < 0
      · exact Or.inl hneg
      · match n, hmn with
        | n + 1, hmn =>
          rcases h with h | ⟨off, oldD, newD, hent, hlen, hbound, hslice,
            htail⟩
          · omega
          · have hent₂ : entryAt H₂ hi₂ =
                some (Entry.edit off EditMode.pixel oldD newD) := by
              have := hag 0 (by push_cast; omega)
              simp only [Nat.cast_zero, Int.sub_zero] at this
              rw [this, hent]
            have hag' : ∀ k : Nat, 0 ≤ hi₂ - 1 - k →
                entryAt H₂ (hi₂ - 1 - k) = entryAt H (hi - 1 - k) := by
              intro k hk
              have := hag (k + 1) (by push_cast at hk ⊢; omega)
              have e₂ : hi₂ - ((k + 1 : Nat) : Int) = hi₂ - 1 - k := by
                push_cast
                ring
              have e₁ : hi - ((k + 1 : Nat) : Int) = hi - 1 - k := by
                push_cast
                ring
              rw [e₂, e₁] at this
              exact this
            exact Or.inr ⟨off, oldD, newD, hent₂, hlen, hbound, hslice,
              ih n _ H H₂ (hi - 1) (hi₂ - 1) (by omega) (by omega) hag'
                htail⟩

/-! ### Undo and redo on canonical states -/

theorem canonSession_RC (b : Buffer) (W A : Nat)
    (deflate : Buffer → Buffer) (_info : ImageInfo) (_orig px : Buffer)
    (hF : FrameOk b W A)
    (hdef : ∀ x : Buffer, (deflate x).length < 2 ^ 32) :
    ∀ comp : Buffer, comp.length < 2 ^ 32 →
      rebuildWithIDAT (rebuiltBuffer b W A (deflate px))
        (parsePNG (rebuiltBuffer b W A (deflate px))).chunks comp =
        some (rebuiltBuffer b W A comp) :=
  fun comp hc => rebuild_stable b W A hF (deflate px) (hdef px) comp hc

theorem undo_edit_canon (reg : EffectRegistry)
    (deflate : Buffer → Buffer) (b : Buffer) (W A : Nat)
    (info : ImageInfo) (orig : Buffer) (px : Buffer) (L : List Layer)
    (C : CacheMap) (H : List Entry) (hi : Int) (off : Nat)
    (oldD newD : Buffer) (hF : FrameOk b W A)
    (hdef : ∀ x : Buffer, (deflate x).length < 2 ^ 32) (hhi : 0 ≤ hi)
    (hent : H[hi.toNat]? = some (Entry.edit off EditMode.pixel oldD newD)) :
    undo reg deflate (canonSession b W A deflate info orig px L C H hi) =
      canonSession b W A deflate info orig (writeBytes px off oldD) L C
        H (hi - 1) :=
  undo_edit_eq reg deflate b W A info orig _ _ _ _ L C H hi px off oldD
    newD (canonSession_RC b W A deflate info orig px hF hdef) hdef hhi
    hent

theorem redo_edit_canon (reg : EffectRegistry)
    (deflate : Buffer → Buffer) (b : Buffer) (W A : Nat)
    (info : ImageInfo) (orig : Buffer) (px : Buffer) (L : List Layer)
    (C : CacheMap) (H : List Entry) (hi : Int) (off : Nat)
    (oldD newD : Buffer) (hF : FrameOk b W A)
    (hdef : ∀ x : Buffer, (deflate x).length < 2 ^ 32)
    (hlt : hi < (H.length : Int) - 1)
    (hent : H[(hi + 1).toNat]? =
      some (Entry.edit off EditMode.pixel oldD newD)) :
    redo reg deflate (canonSession b W A deflate info orig px L C H hi) =
      canonSession b W A deflate info orig (writeBytes px off newD) L C
        H (hi + 1) :=
  redo_edit_eq reg deflate b W A info orig _ _ _ _ L C H hi px off oldD
    newD (canonSession_RC b W A deflate info orig px hF hdef) hdef hlt
    hent

theorem editByte_canon (deflate : Buffer → Buffer) (b : Buffer)
    (W A : Nat) (info : ImageInfo) (orig : Buffer) (px : Buffer)
    (L : List Layer) (C : CacheMap) (H : List Entry) (hi : Int)
    (off v : Nat) (hF : FrameOk b W A)
    (hdef : ∀ x : Buffer, (deflate x).length < 2 ^ 32)
    (hoff : off < px.length) (hnev : px.getD off 0 ≠ v) :
    editByte deflate (canonSession b W A deflate info orig px L C H hi)
      off v =
    canonSession b W A deflate info orig (px.set off (v % 256)) L C
      (pushedHistory H hi
        (Entry.edit off EditMode.pixel [px.getD off 0] [v % 256])).1
      (pushedHistory H hi
        (Entry.edit off EditMode.pixel [px.getD off 0] [v % 256])).2 :=
  editByte_eq deflate b W A info orig _ _ _ _ L C H hi px off v
    (canonSession_RC b W A deflate info orig px hF hdef) hdef hoff hnev

theorem undoN_add (reg : EffectRegistry) (deflate : Buffer → Buffer)
    (a : Nat) : ∀ (c : Nat) (s : Session),
    undoN reg deflate (a + c) s = undoN reg deflate a
      (undoN reg deflate c s) := by
  intro c
  induction c generalizing a with
  | zero => intro s; rfl
  | succ c ih =>
      intro s
      show undoN reg deflate (a + c + 1) s = _
      show undoN reg deflate (a + c) (undo reg deflate s) = _
      rw [ih a (undo reg deflate s)]
      rfl

theorem redoN_add (reg : EffectRegistry) (deflate : Buffer → Buffer)
    (a : Nat) : ∀ (c : Nat) (s : Session),
    redoN reg deflate (a + c) s = redoN reg deflate a
      (redoN reg deflate c s) := by
  induction a with
  | zero => intro c s; rw [Nat.zero_add]; rfl
  | succ a ih =>
      intro c s
      have e : a + 1 + c = (a + c) + 1 := by omega
      rw [e]
      show redo reg deflate (redoN reg deflate (a + c) s) = _
      rw [ih c s]
      rfl

theorem undoN_fixed (reg : EffectRegistry) (deflate : Buffer → Buffer)
    (s : Session) (h : s.historyIndex < 0) :
    ∀ n, undoN reg deflate n s = s := by
  intro n
  induction n with
  | zero => rfl
  | succ n ih =>
      show undoN reg deflate n (undo reg deflate s) = s
      rw [undo_bottom reg deflate s h]
      exact ih

theorem redoN_fixed (reg : EffectRegistry) (deflate : Buffer → Buffer)
    (s : Session) (h : s.historyIndex ≥ (s.history.length : Int) - 1) :
    ∀ n, redoN reg deflate n s = s := by
  intro n
  induction n with
  | zero => rfl
  | succ n ih =>
      show redo reg deflate (redoN reg deflate n s) = s
      rw [ih, redo_top reg deflate s h]

/-- Core of the round trip: while undos do not hit the bottom of the
history, `n` undos followed by `n` redos restore the canonical state
exactly (the layer list, the pristine buffer, the render cache and the
history never change along the way). -/
theorem edit_roundtrip_le (reg : EffectRegistry)
    (deflate : Buffer → Buffer) (b : Buffer) (W A : Nat)
    (info : ImageInfo) (orig : Buffer) (hF : FrameOk b W A)
    (hdef : ∀ x : Buffer, (deflate x).length < 2 ^ 32) :
    ∀ (n : Nat) (px : Buffer) (L : List Layer) (C : CacheMap)
      (H : List Entry) (hi : Int),
      (n : Int) ≤ hi + 1 → hi < (H.length : Int) →
      EditChain ((hi + 1).toNat) px H hi →
      redoN reg deflate n (undoN reg deflate n
        (canonSession b W A deflate info orig px L C H hi)) =
        canonSession b W A deflate info orig px L C H hi := by
  intro n
  induction n with
  | zero => intro px L C H hi _ _ _; rfl
  | succ n ih =>
      intro px L C H hi hn hhiH hch
      have hhi0 : 0 ≤ hi := by omega
      have hfuel : (hi + 1).toNat = hi.toNat + 1 := by omega
      rw [hfuel] at hch
      rcases hch with hneg | ⟨off, oldD, newD, hent, hlen, hbound,
        hslice, htail⟩
      · omega
      · rw [entryAt_nonneg H hi hhi0] at hent
        have hfuel' : ((hi - 1) + 1).toNat = hi.toNat := by omega
        have hidx : hi - 1 + 1 = hi := by ring
        have hu := undo_edit_canon reg deflate b W A info orig px L C
          H hi off oldD newD hF hdef hhi0 hent
        rw [← hfuel'] at htail
        have heq₂ := ih (writeBytes px off oldD) L C H (hi - 1)
          (by omega) (by omega) htail
        have hr := redo_edit_canon reg deflate b W A info orig
          (writeBytes px off oldD) L C H (hi - 1) off oldD newD hF hdef
          (by omega) (by rw [hidx]; exact hent)
        rw [hidx] at hr
        have hpx : writeBytes (writeBytes px off oldD) off newD = px := by
          rw [writeBytes_overwrite oldD newD px off (by omega),
            writeBytes_slice_id newD px off hbound hslice]
        show redo reg deflate (redoN reg deflate n
          (undoN reg deflate n (undo reg deflate _))) = _
        rw [hu, heq₂, hr, hpx]

/-- Undos alone walk a canonical state down the history, staying
canonical and touching only the pixel buffer and the index. -/
theorem undoN_descent_edit (reg : EffectRegistry)
    (deflate : Buffer → Buffer) (b : Buffer) (W A : Nat)
    (info : ImageInfo) (orig : Buffer) (hF : FrameOk b W A)
    (hdef : ∀ x : Buffer, (deflate x).length < 2 ^ 32) :
    ∀ (m : Nat) (px : Buffer) (L : List Layer) (C : CacheMap)
      (H : List Entry) (hi : Int),
      (m : Int) ≤ hi + 1 → hi < (H.length : Int) →
      EditChain ((hi + 1).toNat) px H hi →
      ∃ px', undoN reg deflate m
          (canonSession b W A deflate info orig px L C H hi) =
        canonSession b W A deflate info orig px' L C H (hi - m) := by
  intro m
  induction m with
  | zero =>
      intro px L C H hi _ _ _
      refine ⟨px, ?_⟩
      have e : hi - ((0 : Nat) : Int) = hi := by push_cast; ring
      rw [e]
      rfl
  | succ m ih =>
      intro px L C H hi hm hhiH hch
      have hhi0 : 0 ≤ hi := by omega
      have hfuel : (hi + 1).toNat = hi.toNat + 1 := by omega
      rw [hfuel] at hch
      rcases hch with hneg | ⟨off, oldD, newD, hent, _, _, _, htail⟩
      · omega
      · rw [entryAt_nonneg H hi hhi0] at hent
        have hfuel' : ((hi - 1) + 1).toNat = hi.toNat := by omega
        have hidx : hi - 1 - (m : Int) = hi - ((m + 1 : Nat) : Int) := by
          push_cast
          ring
        have hu := undo_edit_canon reg deflate b W A info orig px L C
          H hi off oldD newD hF hdef hhi0 hent
        rw [← hfuel'] at htail
        obtain ⟨px', heq⟩ := ih (writeBytes px off oldD) L C H (hi - 1)
          (by omega) (by omega) htail
        refine ⟨px', ?_⟩
        show undoN reg deflate m (undo reg deflate _) = _
        rw [hu, heq, hidx]

/-- The round trip on a canonical state sitting at the top of its
history: for any `n`, `n` undos then `n` redos restore the state exactly
(undos beyond the bottom of the history and redos beyond its top are
no-ops). -/
theorem edit_canon_roundtrip (reg : EffectRegistry)
    (deflate : Buffer → Buffer) (b : Buffer) (W A : Nat)
    (info : ImageInfo) (orig : Buffer) (hF : FrameOk b W A)
    (hdef : ∀ x : Buffer, (deflate x).length < 2 ^ 32) (px : Buffer)
    (L : List Layer) (C : CacheMap) (H : List Entry) (hi : Int)
    (hch : EditChain ((hi + 1).toNat) px H hi)
    (htop : hi = (H.length : Int) - 1) (n : Nat) :
    redoN reg deflate n (undoN reg deflate n
      (canonSession b W A deflate info orig px L C H hi)) =
    canonSession b W A deflate info orig px L C H hi := by
  by_cases hn : (n : Int) ≤ hi + 1
  · exact edit_roundtrip_le reg deflate b W A info orig hF hdef n px L
      C H hi hn (by omega) hch
  · by_cases hneg : hi < 0
    · have hbot : (canonSession b W A deflate info orig px L C H
          hi).historyIndex < 0 := hneg
      have htop' : (canonSession b W A deflate info orig px L C H
          hi).historyIndex ≥
          ((canonSession b W A deflate info orig px L C H
            hi).history.length : Int) - 1 := by
        show hi ≥ (H.length : Int) - 1
        omega
      rw [undoN_fixed reg deflate _ hbot n, redoN_fixed reg deflate _
        htop' n]
    · have hm : ((hi + 1).toNat : Int) = hi + 1 := by omega
      obtain ⟨px₀, hUdesc⟩ := undoN_descent_edit reg deflate b W A info
        orig hF hdef (hi + 1).toNat px L C H hi (by omega) (by omega)
        hch
      have hUsplit : undoN reg deflate n
          (canonSession b W A deflate info orig px L C H hi) =
          undoN reg deflate (n - (hi + 1).toNat) (undoN reg deflate
            (hi + 1).toNat
            (canonSession b W A deflate info orig px L C H hi)) := by
        rw [← undoN_add]
        congr 1
        omega
      have hbot₀ : (canonSession b W A deflate info orig px₀ L C H
          (hi - ((hi + 1).toNat : Int))).historyIndex < 0 := by
        show hi - ((hi + 1).toNat : Int) < 0
        omega
      have hfix : undoN reg deflate (n - (hi + 1).toNat)
          (undoN reg deflate (hi + 1).toNat
            (canonSession b W A deflate info orig px L C H hi)) =
          undoN reg deflate (hi + 1).toNat
            (canonSession b W A deflate info orig px L C H hi) := by
        rw [hUdesc]
        exact undoN_fixed reg deflate _ hbot₀ _
      have hRsplit : redoN reg deflate n
          (undoN reg deflate (hi + 1).toNat
            (canonSession b W A deflate info orig px L C H hi)) =
          redoN reg deflate (n - (hi + 1).toNat)
            (redoN reg deflate (hi + 1).toNat
              (undoN reg deflate (hi + 1).toNat
                (canonSession b W A deflate info orig px L C H hi))) := by
        rw [← redoN_add]
        congr 1
        omega
      have heqRT := edit_roundtrip_le reg deflate b W A info orig hF
        hdef (hi + 1).toNat px L C H hi (by omega) (by omega) hch
      have htop' : (canonSession b W A deflate info orig px L C H
          hi).historyIndex ≥
          ((canonSession b W A deflate info orig px L C H
            hi).history.length : Int) - 1 := by
        show hi ≥ (H.length : Int) - 1
        omega
      rw [hUsplit, hfix, hRsplit, heqRT,
        redoN_fixed reg deflate _ htop' _]

/-! ### Forward traces of pixel-buffer byte edits -/

/-- A sequence of `editByte` calls. -/
def applyEdits (deflate : Buffer → Buffer) (edits : List (Nat × Nat))
    (s : Session) : Session :=
  edits.foldl (fun s' p => editByte deflate s' p.1 p.2) s

/-- Effectiveness: every edit passes `editByte`'s guards (in-range
offset, changed value), so each one records exactly one history
entry. -/
def EditsEff : List (Nat × Nat) → Buffer → Prop
  | [], _ => True
  | p :: rest, px =>
      p.1 < px.length ∧ px.getD p.1 0 ≠ p.2 ∧
      EditsEff rest (px.set p.1 (p.2 % 256))

theorem entryAt_neg (H : List Entry) (i : Int) (h : i < 0) :
    entryAt H i = none := by
  unfold entryAt
  rw [if_pos h]

theorem entryAt_append_sing (H : List Entry) (e : Entry) (j : Int)
    (hj : j < (H.length : Int)) :
    entryAt (H ++ [e]) j = entryAt H j := by
  unfold entryAt
  by_cases hneg : j < 0
  · rw [if_pos hneg, if_pos hneg]
  · rw [if_neg hneg, if_neg hneg]
    exact List.getElem?_append_left (by omega)

theorem entryAt_drop_one (H : List Entry) (j : Int) (hj : 0 ≤ j) :
    entryAt (H.drop 1) j = entryAt H (j + 1) := by
  unfold entryAt
  rw [if_neg (by omega), if_neg (by omega)]
  rw [List.getElem?_drop]
  congr 1
  omega

theorem entryAt_append_top (H : List Entry) (e : Entry) :
    entryAt (H ++ [e]) (H.length : Int) = some e := by
  unfold entryAt
  rw [if_neg (by omega)]
  have h : ((H.length : Int)).toNat = H.length := by omega
  rw [h, List.getElem?_append_right (Nat.le_refl _)]
  simp

theorem slice_set_one (px : Buffer) (off a : Nat) (h : off < px.length) :
    ((px.set off a).drop off).take 1 = [a] := by
  have hlt : off < (px.set off a).length := by
    rw [List.length_set]
    exact h
  rw [List.drop_eq_getElem_cons hlt, List.take_succ_cons, List.take_zero]
  congr 1
  exact List.getElem_set_self hlt

/-- Pushing an entry from the top of a capped history. -/
theorem pushedHistory_top (H : List Entry) (hi : Int) (e : Entry)
    (htop : hi = (H.length : Int) - 1) (hcap : H.length ≤ 100) :
    ((pushedHistory H hi e).1 = H ++ [e] ∧
      (pushedHistory H hi e).2 = (H.length : Int) ∧ H.length < 100 ∨
     (pushedHistory H hi e).1 = H.drop 1 ++ [e] ∧
      (pushedHistory H hi e).2 = (H.length : Int) - 1 ∧
      H.length = 100) ∧
    (pushedHistory H hi e).2 =
      ((pushedHistory H hi e).1.length : Int) - 1 ∧
    (pushedHistory H hi e).1.length ≤ 100 := by
  have htake : (hi + 1).toNat = H.length := by omega
  have hlen : (H ++ [e]).length = H.length + 1 := by
    rw [List.length_append]
    simp
  have hP : pushedHistory H hi e =
      if H.length + 1 > 100 then ((H ++ [e]).drop 1, (H.length : Int) - 1)
      else (H ++ [e], (H.length : Int)) := by
    simp only [pushedHistory]
    rw [htake, List.take_length, hlen]
    by_cases hfull : H.length + 1 > 100
    · rw [if_pos hfull, if_pos hfull]
      refine Prod.ext rfl ?_
      show ((H.length + 1 : Nat) : Int) - 2 = (H.length : Int) - 1
      push_cast
      ring
    · rw [if_neg hfull, if_neg hfull]
      refine Prod.ext rfl ?_
      show ((H.length + 1 : Nat) : Int) - 1 = (H.length : Int)
      push_cast
      ring
  rw [hP]
  by_cases hfull : H.length + 1 > 100
  · rw [if_pos hfull]
    have hde : (H ++ [e]).drop 1 = H.drop 1 ++ [e] :=
      List.drop_append_of_le_length (by omega)
    have hlen1 : ((H ++ [e]).drop 1).length = H.length := by
      rw [List.length_drop, hlen]
      omega
    refine ⟨Or.inr ⟨hde, rfl, by omega⟩, ?_, ?_⟩
    · show (H.length : Int) - 1 = (((H ++ [e]).drop 1).length : Int) - 1
      rw [hlen1]
    · show ((H ++ [e]).drop 1).length ≤ 100
      rw [hlen1]
      omega
  · rw [if_neg hfull]
    refine ⟨Or.inl ⟨rfl, rfl, by omega⟩, ?_, ?_⟩
    · show (H.length : Int) = ((H ++ [e]).length : Int) - 1
      rw [hlen]
      push_cast
      ring
    · show (H ++ [e]).length ≤ 100
      rw [hlen]
      omega

/-- Extending the chain with a fresh effective byte edit pushed on top
of a capped history. -/
theorem editChain_extend (px px' : Buffer) (H : List Entry) (hi : Int)
    (off : Nat) (oldD newD : Buffer)
    (htop : hi = (H.length : Int) - 1) (hcap : H.length ≤ 100)
    (hch : EditChain ((hi + 1).toNat) px H hi)
    (hlen : oldD.length = newD.length)
    (hbound : off + newD.length ≤ px'.length)
    (hslice : (px'.drop off).take newD.length = newD)
    (hwb : writeBytes px' off oldD = px) :
    EditChain
      (((pushedHistory H hi
        (Entry.edit off EditMode.pixel oldD newD)).2 + 1).toNat) px'
      (pushedHistory H hi (Entry.edit off EditMode.pixel oldD newD)).1
      (pushedHistory H hi (Entry.edit off EditMode.pixel oldD newD)).2 := by
  generalize hgen : Entry.edit off EditMode.pixel oldD newD = e
  obtain ⟨hcase, _, _⟩ := pushedHistory_top H hi e htop hcap
  have hhi0 : 0 ≤ (pushedHistory H hi e).2 := by
    rcases hcase with ⟨_, h2, _⟩ | ⟨_, h2, h3⟩ <;> rw [h2] <;> omega
  have hfuel : ((pushedHistory H hi e).2 + 1).toNat =
      ((pushedHistory H hi e).2).toNat + 1 := by omega
  rw [hfuel]
  have hentTop : entryAt (pushedHistory H hi e).1
      (pushedHistory H hi e).2 = some e := by
    rcases hcase with ⟨h1, h2, _⟩ | ⟨h1, h2, h3⟩
    · rw [h1, h2]
      exact entryAt_append_top H e
    · rw [h1, h2]
      have hl : ((H.length : Int) - 1) = ((H.drop 1).length : Int) := by
        rw [List.length_drop]
        omega
      rw [hl]
      exact entryAt_append_top (H.drop 1) e
  have htail : EditChain ((pushedHistory H hi e).2).toNat px
      (pushedHistory H hi e).1 ((pushedHistory H hi e).2 - 1) := by
    rcases hcase with ⟨h1, h2, _⟩ | ⟨h1, h2, h3⟩
    · rw [h1, h2]
      refine editChain_transfer _ _ px H _ hi _ (by omega) (by omega)
        ?_ hch
      intro k hk
      have hlt : (H.length : Int) - 1 - k < (H.length : Int) := by omega
      have heq : (H.length : Int) - 1 - (k : Int) = hi - k := by omega
      rw [heq] at hlt ⊢
      exact entryAt_append_sing H e _ hlt
    · rw [h1, h2]
      refine editChain_transfer _ _ px H _ hi _ (by omega) (by omega)
        ?_ hch
      intro k hk
      have hj0 : 0 ≤ (H.length : Int) - 1 - 1 - k := hk
      have hjlt : (H.length : Int) - 1 - 1 - k <
          ((H.drop 1).length : Int) := by
        rw [List.length_drop]
        omega
      rw [entryAt_append_sing (H.drop 1) e _ hjlt,
        entryAt_drop_one H _ hj0]
      congr 1
      omega
  refine Or.inr ⟨off, oldD, newD, ?_, hlen, hbound, hslice, ?_⟩
  · rw [hgen]
    exact hentTop
  · rw [hwb]
    exact htail

/-- Effective byte-edit traces keep the session canonical, with a
chain, the history capped at 100 entries and the index at its top; the
layer list, the pristine buffer and the render cache are untouched. -/
theorem applyEdits_inv (deflate : Buffer → Buffer) (b : Buffer)
    (W A : Nat) (info : ImageInfo) (orig : Buffer) (hF : FrameOk b W A)
    (hdef : ∀ x : Buffer, (deflate x).length < 2 ^ 32) :
    ∀ (edits : List (Nat × Nat)) (px : Buffer) (L : List Layer)
      (C : CacheMap) (H : List Entry) (hi : Int),
      EditChain ((hi + 1).toNat) px H hi →
      hi = (H.length : Int) - 1 → H.length ≤ 100 →
      EditsEff edits px →
      ∃ px' H' hi',
        applyEdits deflate edits
          (canonSession b W A deflate info orig px L C H hi) =
          canonSession b W A deflate info orig px' L C H' hi' ∧
        EditChain ((hi' + 1).toNat) px' H' hi' ∧
        hi' = (H'.length : Int) - 1 ∧ H'.length ≤ 100 := by
  intro edits
  induction edits with
  | nil =>
      intro px L C H hi hch htop hcap _
      exact ⟨px, H, hi, rfl, hch, htop, hcap⟩
  | cons e rest ih =>
      intro px L C H hi hch htop hcap heff
      obtain ⟨hoff, hnev, heff'⟩ := heff
      have h1 := editByte_canon deflate b W A info orig px L C H hi
        e.1 e.2 hF hdef hoff hnev
      obtain ⟨_, htop₁, hcap₁⟩ := pushedHistory_top H hi
        (Entry.edit e.1 EditMode.pixel [px.getD e.1 0] [e.2 % 256])
        htop hcap
      have hch₁ := editChain_extend px (px.set e.1 (e.2 % 256)) H hi
        e.1 [px.getD e.1 0] [e.2 % 256] htop hcap hch rfl
        (by show e.1 + 1 ≤ (px.set e.1 (e.2 % 256)).length
            rw [List.length_set]
            omega)
        (slice_set_one px e.1 (e.2 % 256) hoff)
        (by show writeBytes (px.set e.1 (e.2 % 256)) e.1
              [px.getD e.1 0] = px
            rw [writeBytes_single, List.set_set, set_getD_self px e.1
              hoff])
      obtain ⟨px', H', hi', heq', hch', htop', hcap'⟩ :=
        ih (px.set e.1 (e.2 % 256)) L C
          (pushedHistory H hi
            (Entry.edit e.1 EditMode.pixel [px.getD e.1 0]
              [e.2 % 256])).1
          (pushedHistory H hi
            (Entry.edit e.1 EditMode.pixel [px.getD e.1 0]
              [e.2 % 256])).2
          hch₁ htop₁ hcap₁ heff'
      refine ⟨px', H', hi', ?_, hch', htop', hcap'⟩
      show applyEdits deflate rest (editByte deflate
        (canonSession b W A deflate info orig px L C H hi) e.1 e.2) = _
      rw [h1, heq']

theorem loadSession_mk (inflate : Buffer → Option Buffer) (b : Buffer)
    (info : ImageInfo) (orig : Buffer)
    (hinfo : parseIHDR b (parsePNG b).chunks = some info)
    (horig : decompressIDAT inflate b (parsePNG b).chunks = some orig) :
    loadSession inflate b =
      mkSession b (parsePNG b).chunks (parsePNG b).errors
        (parsePNG b).isValid (some orig) (some info) EditMode.pixel []
        (some orig) [] (-1) false [] (-1) := by
  simp only [loadSession, mkSession]
  rw [hinfo, horig]
  simp

/-- **C3, amended.** The round-trip law survives only for pixel-buffer
byte edits: for every loaded PNG whose chunk walk carries a contiguous
IDAT run and whose IDAT stream inflates (so the editor enters pixel
mode), after any sequence of effective pixel-buffer byte edits, calling
`undo()` any number of times and then `redo()` the same number of times
restores the entire session state — working buffer, chunk list, parse
diagnostics, pixel buffer, layer stack and history — exactly.  Raw-mode
byte edits are excluded: `afterEdit`'s CRC fixups against the stale
chunk layout break the round trip (see `undo_redo_not_roundtrip` in
this development).  Layer operations are excluded too: a render that
applies no enabled registered effect leaves `state.pixelData` and
`state.layerStack.originalPixelData` the same array, and a byte-edit
redo writing through that alias corrupts the pristine original (see
`undo_redo_layer_alias_not_roundtrip`). -/
theorem pixel_edit_undo_redo_roundtrip (reg : EffectRegistry)
    (deflate : Buffer → Buffer) (inflate : Buffer → Option Buffer)
    (b : Buffer) (W A : Nat) (info : ImageInfo) (orig : Buffer)
    (hdef : ∀ x : Buffer, (deflate x).length < 2 ^ 32)
    (hF : FrameOk b W A)
    (hinfo : parseIHDR b (parsePNG b).chunks = some info)
    (horig : decompressIDAT inflate b (parsePNG b).chunks = some orig)
    (edits : List (Nat × Nat)) (heff : EditsEff edits orig) (n : Nat) :
    redoN reg deflate n (undoN reg deflate n
      (applyEdits deflate edits (loadSession inflate b))) =
    applyEdits deflate edits (loadSession inflate b) := by
  have hload := loadSession_mk inflate b info orig hinfo horig
  match edits, heff with
  | [], _ =>
      show redoN reg deflate n (undoN reg deflate n
        (loadSession inflate b)) = loadSession inflate b
      have hbot : (loadSession inflate b).historyIndex < 0 := by
        rw [hload]
        show (-1 : Int) < 0
        decide
      have htp : (loadSession inflate b).historyIndex ≥
          ((loadSession inflate b).history.length : Int) - 1 := by
        rw [hload]
        show (-1 : Int) ≥ ((List.length ([] : List Entry) : Int)) - 1
        decide
      rw [undoN_fixed reg deflate _ hbot n, redoN_fixed reg deflate _
        htp n]
  | e :: rest, ⟨hoff, hnev, heff'⟩ =>
      have h1 : editByte deflate (loadSession inflate b) e.1 e.2 =
          canonSession b W A deflate info orig
            (orig.set e.1 (e.2 % 256)) [] []
            (pushedHistory [] (-1)
              (Entry.edit e.1 EditMode.pixel [orig.getD e.1 0]
                [e.2 % 256])).1
            (pushedHistory [] (-1)
              (Entry.edit e.1 EditMode.pixel [orig.getD e.1 0]
                [e.2 % 256])).2 := by
        rw [hload]
        exact editByte_eq deflate b W A info orig b (parsePNG b).chunks
          (parsePNG b).errors (parsePNG b).isValid [] [] [] (-1) orig
          e.1 e.2 (rebuildWithIDAT_first b W A hF).2 hdef hoff hnev
      obtain ⟨_, htop₁, hcap₁⟩ := pushedHistory_top [] (-1)
        (Entry.edit e.1 EditMode.pixel [orig.getD e.1 0] [e.2 % 256])
        (by simp) (by simp)
      have hch0 : EditChain (((-1 : Int) + 1).toNat) orig [] (-1) := by
        show EditChain 0 orig [] (-1)
        trivial
      have hch₁ := editChain_extend orig (orig.set e.1 (e.2 % 256)) []
        (-1) e.1 [orig.getD e.1 0] [e.2 % 256] (by simp) (by simp) hch0
        rfl
        (by show e.1 + 1 ≤ (orig.set e.1 (e.2 % 256)).length
            rw [List.length_set]
            omega)
        (slice_set_one orig e.1 (e.2 % 256) hoff)
        (by show writeBytes (orig.set e.1 (e.2 % 256)) e.1
              [orig.getD e.1 0] = orig
            rw [writeBytes_single, List.set_set, set_getD_self orig e.1
              hoff])
      obtain ⟨px', H', hi', heq', hch', htop', hcap'⟩ :=
        applyEdits_inv deflate b W A info orig hF hdef rest
          (orig.set e.1 (e.2 % 256)) [] []
          (pushedHistory [] (-1)
            (Entry.edit e.1 EditMode.pixel [orig.getD e.1 0]
              [e.2 % 256])).1
          (pushedHistory [] (-1)
            (Entry.edit e.1 EditMode.pixel [orig.getD e.1 0]
              [e.2 % 256])).2 hch₁ htop₁ hcap₁ heff'
      have happ : applyEdits deflate (e :: rest)
          (loadSession inflate b) =
          canonSession b W A deflate info orig px' [] [] H' hi' := by
        show applyEdits deflate rest (editByte deflate
          (loadSession inflate b) e.1 e.2) = _
        rw [h1, heq']
      rw [happ]
      exact edit_canon_roundtrip reg deflate b W A info orig hF hdef
        px' [] [] H' hi' hch' htop' n

/-! ### A concrete round-trip instance -/

def c3Deflate : Buffer → Buffer := fun _ => [9]

def c3Info : ImageInfo := parseIHDRData ((tb6.drop 16).take 13)

def c3Orig : Buffer := [0, 0, 0]

def c3Chunks : List Chunk := (parseChunksLoop tb6 8).1

def c3Errs : List ParseError := (parseChunksLoop tb6 8).2

def c3Idat : Chunk := (c3Chunks.drop 1).headD (sigChunk false)

set_option maxRecDepth 40000 in
theorem c3_frameOk : FrameOk tb6 33 46 :=
  ⟨c3Chunks.take 1, c3Idat, [], c3Idat, [], c3Chunks.drop 2, c3Errs,
    by decide, rfl, by decide, by decide, by decide, by decide,
    by decide⟩

theorem c3_editsEff : EditsEff [(0, 7), (2, 9)] c3Orig :=
  ⟨by decide, by decide, by decide, by decide, trivial⟩

set_option maxRecDepth 40000 in
/-- Witness for the amended C3: a concrete 4×4 RGBA container and two
pixel byte edits, then two undos and two redos. -/
theorem pixel_edit_undo_redo_roundtrip_witness :
    ((∀ x : Buffer, (c3Deflate x).length < 2 ^ 32) ∧
     FrameOk tb6 33 46 ∧
     parseIHDR tb6 (parsePNG tb6).chunks = some c3Info ∧
     decompressIDAT shortInflate tb6 (parsePNG tb6).chunks =
       some c3Orig ∧
     EditsEff [(0, 7), (2, 9)] c3Orig) ∧
    redoN demoRegistry c3Deflate 2 (undoN demoRegistry c3Deflate 2
      (applyEdits c3Deflate [(0, 7), (2, 9)]
        (loadSession shortInflate tb6))) =
    applyEdits c3Deflate [(0, 7), (2, 9)]
      (loadSession shortInflate tb6) :=
  ⟨⟨fun _ => by show ([9] : Buffer).length < 2 ^ 32; decide, c3_frameOk,
    by decide, by decide, c3_editsEff⟩,
   pixel_edit_undo_redo_roundtrip demoRegistry c3Deflate shortInflate
     tb6 33 46 c3Info c3Orig
     (fun _ => by show ([9] : Buffer).length < 2 ^ 32; decide) c3_frameOk
     (by decide) (by decide) [(0, 7), (2, 9)] c3_editsEff 2⟩

end Glitchedit
